import Mathlib

/-! acm-sqli: a verification development of `main.go`

The file embeds the scan service of `main.go` in Lean: the Go string helpers
the program calls, the pure builders (`buildFormData`, `buildJSONData`,
`extractPayload`), the job runner `processInputWithCancel`, and the registry
(`scanResults`, `scanCancel`) with its handlers as a transition system whose
steps are the critical sections of the mutex `mu`.

Go strings are modelled as Lean `String`s (sequences of Unicode scalar values,
i.e. well-formed UTF-8 text); Go `int` is modelled as `Int`. The Unicode case
table that `strings.ToUpper` consults belongs to the Go runtime and is a
parameter, `caseTable`, of the runner and of everything that runs it. A call
of `handleSQLiScan` is a sequence of steps of its own, interleaved with the
steps of the rest of the program.
-/

namespace AcmSqli

/-! ## Go `strings` helpers used by the program -/

namespace Strings

/-- Go `unicode.IsSpace`: the white-space runes that `strings.TrimSpace` strips. -/
def isSpace (c : Char) : Bool :=
  let n := c.toNat
  n == 0x09 || n == 0x0A || n == 0x0B || n == 0x0C || n == 0x0D || n == 0x20 ||
  n == 0x85 || n == 0xA0 || n == 0x1680 || (0x2000 ≤ n && n ≤ 0x200A) ||
  n == 0x2028 || n == 0x2029 || n == 0x202F || n == 0x205F || n == 0x3000

/-- Drops trailing characters satisfying `p`. -/
def dropRightWhile (p : Char → Bool) : List Char → List Char
  | [] => []
  | c :: cs =>
    match dropRightWhile p cs with
    | [] => if p c then [] else [c]
    | r => c :: r

/-- Go `strings.TrimSpace`: strips leading and trailing white space. -/
def TrimSpace (s : String) : String :=
  ⟨dropRightWhile isSpace (s.data.dropWhile isSpace)⟩

/-- Pieces of `s` between occurrences of the one-character separator `sep`;
`cur` holds the characters of the piece being read, in reverse. -/
def splitAux (sep : Char) : List Char → List Char → List (List Char)
  | [], cur => [cur.reverse]
  | c :: cs, cur =>
    if c = sep then cur.reverse :: splitAux sep cs []
    else splitAux sep cs (c :: cur)

/-- Go `strings.Split(s, sep)` for a separator of one character, which is how
the program calls it (`","` and `"\n"`). -/
def Split (s : String) (sep : Char) : List String :=
  (splitAux sep s.data []).map String.mk

/-- Whether the list `p` is a prefix of the list `s`. -/
def prefixOf : List Char → List Char → Bool
  | [], _ => true
  | _ :: _, [] => false
  | a :: p, b :: s => a == b && prefixOf p s

/-- Go `strings.HasPrefix`. -/
def HasPrefix (s pre : String) : Bool :=
  prefixOf pre.data s.data

/-- Go `strings.TrimPrefix`: `s` without the leading `pre`, or `s` itself. -/
def TrimPrefix (s pre : String) : String :=
  if HasPrefix s pre then ⟨s.data.drop pre.data.length⟩ else s

/-- Whether `sub` occurs in `s` at some position. -/
def containsL (sub : List Char) : List Char → Bool
  | [] => prefixOf sub []
  | c :: cs => prefixOf sub (c :: cs) || containsL sub cs

/-- Go `strings.Contains`. -/
def Contains (s sub : String) : Bool :=
  containsL sub.data s.data

/-- Replaces the first occurrence of `old` in the list by `new`. -/
def replaceFirstL (old new : List Char) : List Char → List Char
  | [] => if prefixOf old [] then new else []
  | c :: cs =>
    if prefixOf old (c :: cs) then new ++ (c :: cs).drop old.length
    else c :: replaceFirstL old new cs

/-- Go `strings.Replace(s, old, new, 1)`: the first occurrence only. -/
def Replace1 (s old new : String) : String :=
  ⟨replaceFirstL old.data new.data s.data⟩

/-- Go `unicode.ToUpper`: an ASCII rune is shifted when it is a lower-case
letter; every other rune is mapped by the Unicode case table of the Go
runtime, `caseTable`, which is not part of the program. -/
def upperRune (caseTable : Char → Char) (c : Char) : Char :=
  if c.toNat ≤ 0x7F then
    (if 0x61 ≤ c.toNat ∧ c.toNat ≤ 0x7A then Char.ofNat (c.toNat - 0x20) else c)
  else caseTable c

/-- Go `strings.ToUpper`: every rune of the text mapped by `unicode.ToUpper`. -/
def ToUpper (caseTable : Char → Char) (s : String) : String :=
  ⟨s.data.map (upperRune caseTable)⟩

/-- Decimal digits of `n`, most significant first; `fuel` bounds the number of
digits produced. -/
def natDigits : Nat → Nat → List Char → List Char
  | 0, _, acc => acc
  | fuel + 1, n, acc =>
    let acc' := Char.ofNat (0x30 + n % 10) :: acc
    if n / 10 = 0 then acc' else natDigits fuel (n / 10) acc'

/-- Go `fmt.Sprintf("%d", n)`. -/
def fmtInt (n : Int) : String :=
  match n with
  | Int.ofNat m => ⟨natDigits (m + 1) m []⟩
  | Int.negSucc m => ⟨'-' :: natDigits (m + 2) (m + 1) []⟩

end Strings

/-! ## Go `encoding/json` on a `map[string]string` -/

namespace Json

/-- Hexadecimal digit, lower case, as `encoding/json` writes it. -/
def hexDigit (n : Nat) : Char :=
  if n < 10 then Char.ofNat (0x30 + n) else Char.ofNat (0x57 + n)

/-- Escape sequence `\u` followed by four hexadecimal digits. -/
def uEscape (n : Nat) : List Char :=
  ['\\', 'u', hexDigit (n / 4096 % 16), hexDigit (n / 256 % 16),
    hexDigit (n / 16 % 16), hexDigit (n % 16)]

/-- How `json.Marshal` writes one rune inside a string (HTML escaping on). -/
def escapeRune (c : Char) : List Char :=
  let n := c.toNat
  if n == 0x5C || n == 0x22 then ['\\', c]
  else if n == 0x08 then ['\\', 'b']
  else if n == 0x0C then ['\\', 'f']
  else if n == 0x0A then ['\\', 'n']
  else if n == 0x0D then ['\\', 'r']
  else if n == 0x09 then ['\\', 't']
  else if n < 0x20 || n == 0x3C || n == 0x3E || n == 0x26 then uEscape n
  else if n == 0x2028 || n == 0x2029 then uEscape n
  else [c]

/-- JSON string literal for `s`. -/
def quote (s : String) : String :=
  ⟨'"' :: (s.data.flatMap escapeRune ++ ['"'])⟩

/-- Go string order `<=` (byte order of UTF-8, which is code-point order). -/
def leL : List Char → List Char → Bool
  | [], _ => true
  | _ :: _, [] => false
  | a :: as, b :: bs => a.toNat < b.toNat || (a.toNat == b.toNat && leL as bs)

/-- Inserts an entry into a key-sorted entry list. -/
def insertSorted (e : String × String) : List (String × String) → List (String × String)
  | [] => [e]
  | x :: xs => if leL e.1.data x.1.data then e :: x :: xs else x :: insertSorted e xs

/-- Entries sorted by key, the order in which `json.Marshal` writes a map. -/
def sortEntries : List (String × String) → List (String × String)
  | [] => []
  | e :: es => insertSorted e (sortEntries es)

/-- One object member, `"key":"value"`. -/
def member (e : String × String) : String :=
  quote e.1 ++ ":" ++ quote e.2

/-- Members separated by commas. -/
def members : List (String × String) → String
  | [] => ""
  | [e] => member e
  | e :: es => member e ++ "," ++ members es

/-- Go `json.Marshal` of a `map[string]string` given by its entries. -/
def Marshal (m : List (String × String)) : String :=
  "\x7b" ++ members (sortEntries m) ++ "\x7d"

end Json

/-! ## Go maps with string keys -/

namespace Map

/-- Map lookup `m[k]`, with the presence flag as an `Option`. -/
def get {α : Type} : List (String × α) → String → Option α
  | [], _ => none
  | (k', v) :: t, k => if k' = k then some v else get t k

/-- Map assignment `m[k] = v`. -/
def put {α : Type} : List (String × α) → String → α → List (String × α)
  | [], k, v => [(k, v)]
  | (k', v') :: t, k, v => if k' = k then (k, v) :: t else (k', v') :: put t k v

/-- Go `delete(m, k)`. -/
def del {α : Type} : List (String × α) → String → List (String × α)
  | [], _ => []
  | (k', v) :: t, k => if k' = k then del t k else (k', v) :: del t k

end Map

/-! ## Pure builders and the output parser -/

/-- Loop of `buildFormData` over `parts`, `i` being the index of the head. -/
def buildFormLoop : List String → Nat → String → String
  | [], _, builder => builder
  | p :: rest, i, builder =>
    let b1 := if i > 0 then builder ++ "&" else builder
    let b2 := if i = 0 then b1 ++ (Strings.TrimSpace p ++ "=1*")
              else b1 ++ (Strings.TrimSpace p ++ "=test")
    buildFormLoop rest (i + 1) b2

/-- Source `buildFormData` (main.go 237-251). -/
def buildFormData (params : String) : String :=
  let parts := Strings.Split params ','
  buildFormLoop parts 0 ""

/-- Loop of `buildJSONData` filling the map `m`. -/
def buildJSONLoop : List String → Nat → List (String × String) → List (String × String)
  | [], _, m => m
  | p :: rest, i, m =>
    let key := Strings.TrimSpace p
    let m' := if i = 0 then Map.put m key "1*" else Map.put m key "test"
    buildJSONLoop rest (i + 1) m'

/-- The map that `buildJSONData` hands to `json.Marshal`. -/
def buildJSONMap (params : String) : List (String × String) :=
  buildJSONLoop (Strings.Split params ',') 0 []

/-- Source `buildJSONData` (main.go 253-266). -/
def buildJSONData (params : String) : String :=
  Json.Marshal (buildJSONMap params)

/-- Loop of `extractPayload` over the lines. -/
def extractPayloadLoop : List String → String
  | [] => ""
  | line :: rest =>
    let line := Strings.TrimSpace line
    if Strings.HasPrefix line "Payload:" then
      Strings.TrimSpace (Strings.TrimPrefix line "Payload:")
    else extractPayloadLoop rest

/-- Source `extractPayload` (main.go 268-277). -/
def extractPayload (output : String) : String :=
  extractPayloadLoop (Strings.Split output '\n')

/-! ## Data model (main.go 16-46) -/

/-- Source constant `sqlmapPath`. -/
def sqlmapPath : String := "./sqlmap/sqlmap.py"

/-- Source `ScanInput`; `Headers` lists the entries of the header map in the
order in which the `range` loop of one run visits them. -/
structure ScanInput where
  URL : String
  HTTPMethod : String
  FormParams : String
  BodyParams : String
  Headers : List (String × String)
  deriving DecidableEq, Repr

/-- Source `ScanBatchInput`. -/
structure ScanBatchInput where
  Threads : Int
  Level : Int
  Risk : Int
  TimeBased : Bool
  URL : List ScanInput
  deriving DecidableEq, Repr

/-- Source `ScanResult`. -/
structure ScanResult where
  ID : String
  URL : String
  Vulnerable : Bool
  Payload : String
  Status : String
  deriving DecidableEq, Repr

/-! ## The job runner (main.go 157-235) -/

/-- What the `select` of the runner receives. `cancelFired` carries the value of
`cmd.Process` at that moment (`none` is the nil pointer: the tool has not been
started, or its launch failed) and whether `Kill` reports an error;
`doneFired` carries the captured output `out.String()`. -/
inductive SelectEvent where
  | cancelFired (process : Option Nat) (killFails : Bool)
  | doneFired (output : String)
  deriving DecidableEq, Repr

/-- Result of one run of the runner: the argument vector of the command it
built with `exec.Command` (`none` when it returned before building one) and
the `ScanResult` it returned (`none` when it faulted instead of returning). -/
structure RunnerOutcome where
  command : Option (List String)
  result : Option ScanResult
  deriving DecidableEq, Repr

/-- Source `processInputWithCancel` (main.go 157-235); `caseTable` is the case
table that `strings.ToUpper` consults. -/
def processInputWithCancel (caseTable : Char → Char) (input : ScanInput) (ev : SelectEvent)
    (level risk threads : Int) (timeBased : Bool) : RunnerOutcome :=
  let url := input.URL
  let headers := input.Headers.map (fun kv => kv.1 ++ ": " ++ kv.2)
  let headerArgs := headers.map (fun h => "--headers=" ++ h)
  let tech := if timeBased then "--technique=BEUSTQ" else "--technique=BEUSQ"
  let extraArgs := [
    "--batch",
    "--stop",
    "--level=" ++ Strings.fmtInt level,
    "--risk=" ++ Strings.fmtInt risk,
    "--threads=" ++ Strings.fmtInt threads,
    tech,
    "--method=" ++ Strings.ToUpper caseTable input.HTTPMethod]
  let data :=
    if input.BodyParams ≠ "" then buildJSONData input.BodyParams
    else if input.FormParams ≠ "" then buildFormData input.FormParams
    else ""
  let headerArgs :=
    if input.BodyParams ≠ "" then headerArgs ++ ["--headers=Content-Type: application/json"]
    else headerArgs
  if data = "" ∧ ¬ Strings.Contains url "FUZZ" then
    { command := none,
      result := some { ID := "", URL := input.URL, Vulnerable := false, Payload := "",
                       Status := "skipped" } }
  else
    let url := if Strings.Contains url "FUZZ" then Strings.Replace1 url "FUZZ" "1*" else url
    let args := ["-u", url]
    let args := if data ≠ "" then args ++ ["--data", data] else args
    let args := args ++ extraArgs
    let args := args ++ headerArgs
    let cmd := "python3" :: ([sqlmapPath] ++ args)
    match ev with
    | SelectEvent.cancelFired process _ =>
      match process with
      | none => { command := some cmd, result := none }
      | some _ =>
        { command := some cmd,
          result := some { ID := "", URL := input.URL, Vulnerable := false, Payload := "",
                           Status := "cancelled" } }
    | SelectEvent.doneFired output =>
      let payload := extractPayload output
      { command := some cmd,
        result := some { ID := "", URL := input.URL, Vulnerable := decide (payload ≠ ""),
                         Payload := payload, Status := "done" } }

/-! ## The registry and its handlers (main.go 42-155) -/

/-- Where the goroutine started for a job stands: inside
`processInputWithCancel`, holding its result before taking the lock, or past
its write to `scanResults`. -/
inductive Phase where
  | inRunner
  | returned (res : ScanResult)
  | finished
  deriving DecidableEq, Repr

/-- The goroutine started by `handleSQLiScan` for one request, with the values
its closure captures and whether its `cancelChan` has been closed. -/
structure Worker where
  input : ScanInput
  id : String
  level : Int
  risk : Int
  threads : Int
  timeBased : Bool
  cancelClosed : Bool
  phase : Phase
  deriving DecidableEq, Repr

/-- Global state: the maps `scanResults` and `scanCancel` guarded by `mu`, and
the workers. A channel is named by the position of the worker created with it. -/
structure State where
  scanResults : List (String × ScanResult)
  scanCancel : List (String × Nat)
  workers : List Worker
  deriving DecidableEq, Repr

/-- State at program start. -/
def State.init : State := { scanResults := [], scanCancel := [], workers := [] }

/-- What a handler sends with `c.JSON`: the HTTP code and the body. -/
inductive Response where
  | error (code : Nat) (msg : String)
  | status (code : Nat) (status : String)
  | record (code : Nat) (res : ScanResult)
  | records (code : Nat) (rs : List ScanResult)
  deriving DecidableEq, Repr

/-- Lines 72-93 of one iteration of the loop of `handleSQLiScan`, with `id`
the value of `uuid.New().String()`: the struct that `result` points to, and
the state after the critical section and the `go` statement. -/
def submitOne (s : State) (input : ScanInput) (level risk threads : Int) (timeBased : Bool)
    (id : String) : ScanResult × State :=
  let result : ScanResult :=
    { ID := id, URL := input.URL, Vulnerable := false, Payload := "", Status := "running" }
  let cancelChan := s.workers.length
  (result,
    { scanResults := Map.put s.scanResults id result,
      scanCancel := Map.put s.scanCancel id cancelChan,
      workers := s.workers ++ [{ input := input, id := id, level := level, risk := risk,
                                 threads := threads, timeBased := timeBased,
                                 cancelClosed := false, phase := Phase.inRunner }] })

/-- Critical section of a worker goroutine (main.go 86-92) storing the result
`res` of its runner under `id`. -/
def workerStore (scanResults : List (String × ScanResult)) (id : String) (res : ScanResult) :
    List (String × ScanResult) :=
  let res := { res with ID := id }
  let res := if res.Status ≠ "cancelled" then { res with Status := "done" } else res
  Map.put scanResults id res

/-- Source `handleStatus` (main.go 101-111). -/
def handleStatus (s : State) (id : String) : Response :=
  match Map.get s.scanResults id with
  | none => Response.error 404 "Scan ID not found"
  | some res => Response.status 200 res.Status

/-- Source `handleResult` (main.go 113-127). -/
def handleResult (s : State) (id : String) : Response :=
  match Map.get s.scanResults id with
  | none => Response.error 404 "Scan ID not found"
  | some res =>
    if res.Status ≠ "done" ∧ res.Status ≠ "cancelled" then Response.status 200 res.Status
    else Response.record 200 res

/-- Source `listAllScans` (main.go 129-137), in the order of the entry list. -/
def listAllScans (s : State) : Response :=
  Response.records 200 (s.scanResults.map (fun e => e.2))

/-- Go `close(ch)` for the channel of worker `ch`. -/
def closeChan (workers : List Worker) (ch : Nat) : List Worker :=
  match workers[ch]? with
  | none => workers
  | some w => workers.set ch { w with cancelClosed := true }

/-- Source `cancelScan` (main.go 139-155). -/
def cancelScan (s : State) (id : String) : Response × State :=
  match Map.get s.scanCancel id with
  | some cancelChan =>
    let workers := closeChan s.workers cancelChan
    let scanCancel := Map.del s.scanCancel id
    let scanResults :=
      match Map.get s.scanResults id with
      | some res => Map.put s.scanResults id { res with Status := "cancelled" }
      | none => s.scanResults
    (Response.status 200 "cancelled",
      { scanResults := scanResults, scanCancel := scanCancel, workers := workers })
  | none => (Response.error 404 "Scan ID not found or already finished", s)

/-! ## Interleavings at the granularity of the lock -/

/-- Whether the `select` of a runner can receive the event, given whether its
`cancelChan` is closed. -/
def SelectEvent.ready (closed : Bool) : SelectEvent → Bool
  | SelectEvent.cancelFired _ _ => closed
  | SelectEvent.doneFired _ => true

/-- Steps of the system: lines 72-93 of one loop iteration of a call of
`handleSQLiScan` with the id the generator returned, the return of worker `w`
from its runner, the critical section of worker `w`, and a call of
`cancelScan`. -/
inductive Action where
  | submit (input : ScanInput) (level risk threads : Int) (timeBased : Bool) (id : String)
  | runnerReturn (w : Nat) (ev : SelectEvent)
  | workerWrite (w : Nat)
  | cancel (id : String)
  deriving DecidableEq, Repr

/-- Successor state of one step, `none` when the step cannot happen in `s`
(the worker is not at that point, the event cannot be received, or the runner
faults and takes the process down). -/
def step (caseTable : Char → Char) (s : State) : Action → Option State
  | Action.submit input level risk threads timeBased id =>
    some (submitOne s input level risk threads timeBased id).2
  | Action.runnerReturn w ev =>
    match s.workers[w]? with
    | none => none
    | some wk =>
      match wk.phase with
      | Phase.inRunner =>
        let out := processInputWithCancel caseTable wk.input ev wk.level wk.risk wk.threads
          wk.timeBased
        if out.command = none ∨ ev.ready wk.cancelClosed = true then
          match out.result with
          | some res =>
            some { s with workers := s.workers.set w { wk with phase := Phase.returned res } }
          | none => none
        else none
      | _ => none
  | Action.workerWrite w =>
    match s.workers[w]? with
    | none => none
    | some wk =>
      match wk.phase with
      | Phase.returned res =>
        some { s with scanResults := workerStore s.scanResults wk.id res,
                      workers := s.workers.set w { wk with phase := Phase.finished } }
      | _ => none
  | Action.cancel id => some (cancelScan s id).2

/-- Runs a sequence of steps. -/
def run (caseTable : Char → Char) (s : State) : List Action → Option State
  | [] => some s
  | a :: as =>
    match step caseTable s a with
    | none => none
    | some s' => run caseTable s' as

/-- States the program can be in: those some sequence of steps leads to from
the initial state. -/
def Reachable (caseTable : Char → Char) (s : State) : Prop :=
  ∃ acts, run caseTable State.init acts = some s

/-- Stored status of job `id`, as `handleStatus` reads it. -/
def statusOf (s : State) (id : String) : Option String :=
  (Map.get s.scanResults id).map (fun r => r.Status)

/-- Terminal statuses of the job lifecycle. -/
def isTerminal (status : String) : Prop :=
  status = "done" ∨ status = "cancelled" ∨ status = "skipped"

/-! ## Sample requests and traces -/

/-- A request with no parameters and no fuzz marker in its URL. -/
def plainRequest : ScanInput :=
  { URL := "http://t/p?q=1", HTTPMethod := "get", FormParams := "", BodyParams := "",
    Headers := [] }

/-- A request whose URL carries the fuzz marker. -/
def fuzzRequest : ScanInput :=
  { URL := "http://t/p?q=FUZZ", HTTPMethod := "get", FormParams := "", BodyParams := "",
    Headers := [] }

/-- Output of the tool reporting a payload. -/
def vulnOutput : String := "Parameter: q\n    Payload: q=1 AND 1=1\n"

/-- The run of `completedTrace`: one job is submitted, the tool finishes with
`vulnOutput`, and the worker writes its result. -/
def completedTrace : List Action :=
  [Action.submit fuzzRequest 1 1 1 false "j1",
   Action.runnerReturn 0 (SelectEvent.doneFired vulnOutput),
   Action.workerWrite 0]

/-- A run in which `cancelScan` is served after the runner of the job has
returned from its `select` with the completion and before the worker takes
the lock. -/
def cancelBeforeWriteTrace : List Action :=
  [Action.submit fuzzRequest 1 1 1 false "j1",
   Action.runnerReturn 0 (SelectEvent.doneFired vulnOutput),
   Action.cancel "j1"]

/-- State right after one job `"j1"` has been submitted. -/
def submittedState : State :=
  (submitOne State.init fuzzRequest 1 1 1 false "j1").2

/-- A batch of two requests. -/
def sampleBatch : ScanBatchInput :=
  { Threads := 1, Level := 1, Risk := 1, TimeBased := false, URL := [fuzzRequest, plainRequest] }

/-- An id generator returning `"j1"` first and `"j2"` afterwards. -/
def sampleUuid (k : Nat) : String := if k = 0 then "j1" else "j2"

/-- Registry invariant: a record whose stored status is `"running"` has an
entry in `scanCancel`. -/
def RunningHasSignal (s : State) : Prop :=
  ∀ id r, Map.get s.scanResults id = some r → r.Status = "running" →
    ∃ ch, Map.get s.scanCancel id = some ch

/-- The id a step creates a job under, if it is a submit step. -/
def Action.submitId : Action → Option String
  | Action.submit _ _ _ _ _ id => some id
  | _ => none

/-- Whether a step respects the uniqueness of ids: the id generator answers a
submit step with an id under which nothing is stored yet. -/
def freshStep (s : State) : Action → Bool
  | Action.submit _ _ _ _ _ id => (Map.get s.scanResults id).isNone
  | _ => true

/-- Runs a sequence of steps in which the id generator never returns an id
that is already in the registry; `none` also when it does. -/
def runUnique (caseTable : Char → Char) (s : State) : List Action → Option State
  | [] => some s
  | a :: as =>
    if freshStep s a then
      match step caseTable s a with
      | none => none
      | some s' => runUnique caseTable s' as
    else none

/-- A case table that changes no rune, for the sample runs: their method
names are ASCII, for which `strings.ToUpper` does not consult the table. -/
def sampleCaseTable : Char → Char := fun c => c

/-- State after the run `completedTrace`. -/
def completedState : State :=
  (run sampleCaseTable State.init completedTrace).getD State.init

/-- A request with body parameters and one header. -/
def bodyRequest : ScanInput :=
  { URL := "http://t/login", HTTPMethod := "post", FormParams := "x", BodyParams := "user, pass",
    Headers := [("X-Token", "abc")] }

/-- Registry invariant: every stored status is `"running"`, `"done"` or
`"cancelled"`. -/
def StatusKnown (s : State) : Prop :=
  ∀ id r, Map.get s.scanResults id = some r →
    r.Status = "running" ∨ r.Status = "done" ∨ r.Status = "cancelled"

/-- Registry invariant: every id with an entry in `scanCancel` has a record
in `scanResults`. -/
def SignalHasRecord (s : State) : Prop :=
  ∀ id ch, Map.get s.scanCancel id = some ch → ∃ r, Map.get s.scanResults id = some r

/-- Nothing in the state refers to `id`: no record, no cancellation entry and
no worker. -/
def Untouched (id : String) (s : State) : Prop :=
  Map.get s.scanResults id = none ∧ Map.get s.scanCancel id = none ∧
    ∀ w ∈ s.workers, w.id ≠ id

/-- Registry invariant: the record stored under a key has that key as its
`ID`. -/
def KeyIsId (s : State) : Prop :=
  ∀ id r, Map.get s.scanResults id = some r → r.ID = id

/-- Invariant of runs with unique ids: every worker has a record under its
id, that record carries the URL of the worker's request, and so does the
result a worker holds before its write. -/
def UrlKept (s : State) : Prop :=
  ∀ w ∈ s.workers,
    (∃ r, Map.get s.scanResults w.id = some r ∧ r.URL = w.input.URL) ∧
    ∀ res, w.phase = Phase.returned res → res.URL = w.input.URL

/-- Invariant: `Vulnerable` holds exactly when `Payload` is non-empty, for
every stored record and every result a worker holds before its write. -/
def VulnIffPayload (s : State) : Prop :=
  (∀ id r, Map.get s.scanResults id = some r → (r.Vulnerable = true ↔ r.Payload ≠ "")) ∧
  ∀ w ∈ s.workers, ∀ res, w.phase = Phase.returned res →
    (res.Vulnerable = true ↔ res.Payload ≠ "")

/-! ## The batch dispatcher (main.go 63-99) -/

/-- A call of `handleSQLiScan` in progress: the bound batch input, the entries
the loop has not reached, the number of ids drawn from `uuid.New` so far, the
slice `results`, and, between the `mu.Unlock()` of line 82 and the copy of
line 95, the struct that `result` points to together with whether
`scanResults[id]` is still that pointer. -/
structure BatchCall where
  batchInput : ScanBatchInput
  todo : List ScanInput
  drawn : Nat
  results : List ScanResult
  pending : Option (ScanResult × Bool)
  deriving DecidableEq, Repr

/-- The call at line 70, after `ShouldBindJSON` has bound the batch input. -/
def BatchCall.start (batchInput : ScanBatchInput) : BatchCall :=
  { batchInput := batchInput, todo := batchInput.URL, drawn := 0, results := [],
    pending := none }

/-- Steps of the program while a call of `handleSQLiScan` runs: the call
executes lines 72-93 of its next iteration (id drawn, critical section,
goroutine started), the call executes the copy of line 95, or the rest of the
program (another request, a worker) takes a step. -/
inductive CallAction where
  | lockSection
  | copy
  | other (a : Action)
  deriving DecidableEq, Repr

/-- Effect of a step of the rest of the program on the struct that `result`
points to: `cancelScan` sets its status through `scanResults[id]` while that
is still the same pointer; a worker write or another submit under the id puts
another pointer into `scanResults[id]`. -/
def touchPending (s : State) (a : Action) (p : ScanResult × Bool) : ScanResult × Bool :=
  match a with
  | Action.cancel id =>
    if p.2 = true ∧ id = p.1.ID ∧ (Map.get s.scanCancel id).isSome = true then
      ({ p.1 with Status := "cancelled" }, p.2)
    else p
  | Action.workerWrite w =>
    match s.workers[w]? with
    | some wk => if wk.id = p.1.ID then (p.1, false) else p
    | none => p
  | Action.submit _ _ _ _ _ id => if id = p.1.ID then (p.1, false) else p
  | Action.runnerReturn _ _ => p

/-- One step of the program while a call of source `handleSQLiScan` (main.go
63-99) runs; `uuidNew k` is the id that the `k`-th call of
`uuid.New().String()` in this call returns. `none` when the step cannot
happen. -/
def handleSQLiScanStep (caseTable : Char → Char) (uuidNew : Nat → String)
    (sc : State × BatchCall) : CallAction → Option (State × BatchCall)
  | CallAction.lockSection =>
    match sc.2.pending, sc.2.todo with
    | none, input :: rest =>
      let r := submitOne sc.1 input sc.2.batchInput.Level sc.2.batchInput.Risk
        sc.2.batchInput.Threads sc.2.batchInput.TimeBased (uuidNew sc.2.drawn)
      some (r.2, { sc.2 with todo := rest, drawn := sc.2.drawn + 1,
                             pending := some (r.1, true) })
    | _, _ => none
  | CallAction.copy =>
    match sc.2.pending with
    | some p => some (sc.1, { sc.2 with results := sc.2.results ++ [p.1], pending := none })
    | none => none
  | CallAction.other a =>
    match step caseTable sc.1 a with
    | some s' => some (s', { sc.2 with pending := sc.2.pending.map (touchPending sc.1 a) })
    | none => none

/-- Runs a sequence of steps of the program and the call. -/
def handleSQLiScanRun (caseTable : Char → Char) (uuidNew : Nat → String)
    (sc : State × BatchCall) : List CallAction → Option (State × BatchCall)
  | [] => some sc
  | a :: as =>
    match handleSQLiScanStep caseTable uuidNew sc a with
    | none => none
    | some sc' => handleSQLiScanRun caseTable uuidNew sc' as

/-- The response of line 98, once the loop has gone through the batch. -/
def handleSQLiScanResponse (c : BatchCall) : Option Response :=
  if c.todo = [] ∧ c.pending = none then some (Response.records 202 c.results) else none

/-- The snapshots the call has taken or is about to take: `results` and the
struct awaiting its copy. -/
def BatchCall.snapshots (c : BatchCall) : List ScanResult :=
  c.results ++ (match c.pending with
    | some p => [p.1]
    | none => [])

/-- The fields of a snapshot other than its status. -/
def snapshotCore (r : ScanResult) : String × String × Bool × String :=
  (r.ID, r.URL, r.Vulnerable, r.Payload)

/-- The fields other than the status that the snapshot of request `i` of the
batch is to have. -/
def expectedCore (uuidNew : Nat → String) (batchInput : ScanBatchInput) (i : Nat) :
    String × String × Bool × String :=
  (uuidNew i, ((batchInput.URL[i]?).map (fun x => x.URL)).getD "", false, "")

/-- Invariant of a call: the loop position, the fields of the snapshots taken
so far, and the presence of their ids in the registry. -/
def CallInv (uuidNew : Nat → String) (batchInput : ScanBatchInput)
    (sc : State × BatchCall) : Prop :=
  sc.2.batchInput = batchInput ∧
  sc.2.todo = batchInput.URL.drop sc.2.drawn ∧
  sc.2.drawn ≤ batchInput.URL.length ∧
  sc.2.snapshots.map snapshotCore =
    (List.range sc.2.drawn).map (expectedCore uuidNew batchInput) ∧
  ∀ r ∈ sc.2.snapshots, ∃ rec, Map.get sc.1.scanResults r.ID = some rec

/-- Invariant of a call during which no cancel of one of its ids is served:
the snapshots are `"running"` and their ids have an entry in `scanCancel`. -/
def CallQuiet (sc : State × BatchCall) : Prop :=
  (∀ r ∈ sc.2.snapshots, r.Status = "running") ∧
  ∀ r ∈ sc.2.snapshots, ∃ ch, Map.get sc.1.scanCancel r.ID = some ch

/-- The run in which the call on `sampleBatch` goes through undisturbed. -/
def quietCall : List CallAction :=
  [CallAction.lockSection, CallAction.copy, CallAction.lockSection, CallAction.copy]

/-- The run in which `cancelScan` on `"j1"` is served between the two
iterations of the call on `sampleBatch`. -/
def cancelBetweenIterations : List CallAction :=
  [CallAction.lockSection, CallAction.copy, CallAction.other (Action.cancel "j1"),
   CallAction.lockSection, CallAction.copy]

/-- The run in which `cancelScan` on `"j1"` is served between the unlock and
the copy of the first iteration of the call on `sampleBatch`. -/
def cancelBeforeCopy : List CallAction :=
  [CallAction.lockSection, CallAction.other (Action.cancel "j1"), CallAction.copy,
   CallAction.lockSection, CallAction.copy]

/-- State and call at the end of `quietCall` from the initial state. -/
def quietCallEnd : State × BatchCall :=
  (handleSQLiScanRun sampleCaseTable sampleUuid (State.init, BatchCall.start sampleBatch)
    quietCall).getD (State.init, BatchCall.start sampleBatch)

variable {caseTable : Char → Char}

/-! ## Lemmas on the string helpers -/

theorem String.join_cons_eq (a : String) (l : List String) :
    String.join (a :: l) = a ++ String.join l := by
  have h : ∀ (l : List String) (acc : String),
      List.foldl (fun r s => r ++ s) acc l = acc ++ List.foldl (fun r s => r ++ s) "" l := by
    intro l
    induction l with
    | nil => intro acc; simp
    | cons x xs ih =>
      intro acc
      simp only [List.foldl_cons]
      rw [ih (acc ++ x), ih ("" ++ x), String.empty_append, String.append_assoc]
  show List.foldl (fun r s => r ++ s) "" (a :: l) = a ++ List.foldl (fun r s => r ++ s) "" l
  rw [List.foldl_cons, h l ("" ++ a), String.empty_append]

theorem Strings.splitAux_ne_nil (sep : Char) (s cur : List Char) :
    Strings.splitAux sep s cur ≠ [] := by
  induction s generalizing cur with
  | nil => simp [Strings.splitAux]
  | cons c cs ih =>
    unfold Strings.splitAux
    split
    · simp
    · exact ih _

theorem Strings.splitAux_intercalate (sep : Char) (s cur : List Char) :
    List.intercalate [sep] (Strings.splitAux sep s cur) = cur.reverse ++ s := by
  induction s generalizing cur with
  | nil => simp [Strings.splitAux, List.intercalate]
  | cons c cs ih =>
    unfold Strings.splitAux
    split
    · rename_i h
      have hne := Strings.splitAux_ne_nil sep cs []
      have ih0 := ih []
      cases hsp : Strings.splitAux sep cs [] with
      | nil => exact absurd hsp hne
      | cons y ys =>
        rw [hsp] at ih0
        simp only [List.intercalate, List.intersperse, List.reverse_nil, List.nil_append] at ih0 ⊢
        simp only [List.flatten_cons, List.append_assoc, List.singleton_append]
        rw [ih0, h]
    · rw [ih (c :: cur)]
      simp

theorem Strings.splitAux_no_sep (sep : Char) (s cur : List Char) (hcur : sep ∉ cur) :
    ∀ p ∈ Strings.splitAux sep s cur, sep ∉ p := by
  induction s generalizing cur with
  | nil =>
    intro p hp
    simp only [Strings.splitAux, List.mem_singleton] at hp
    subst hp
    simpa using hcur
  | cons c cs ih =>
    intro p hp
    unfold Strings.splitAux at hp
    split at hp
    · rcases List.mem_cons.mp hp with h | h
      · subst h; simpa using hcur
      · exact ih [] (by simp) p h
    · rename_i hc
      refine ih (c :: cur) ?_ p hp
      intro hmem
      rcases List.mem_cons.mp hmem with h | h
      · exact hc h.symm
      · exact hcur h

/-- The pieces of `Split` are never an empty list. -/
theorem Strings.Split_ne_nil (s : String) (sep : Char) : Strings.Split s sep ≠ [] := by
  unfold Strings.Split
  intro h
  exact Strings.splitAux_ne_nil sep s.data [] (List.map_eq_nil_iff.mp h)

/-- The pieces of `Split`, joined with the separator, give the text back, and
no piece contains the separator. -/
theorem Strings.Split_spec (s : String) (sep : Char) :
    List.intercalate [sep] ((Strings.Split s sep).map String.data) = s.data ∧
    ∀ p ∈ Strings.Split s sep, sep ∉ p.data := by
  constructor
  · unfold Strings.Split
    rw [List.map_map]
    have : (String.data ∘ String.mk) = id := by funext l; rfl
    rw [this, List.map_id, Strings.splitAux_intercalate]
    simp
  · intro p hp
    unfold Strings.Split at hp
    obtain ⟨l, hl, rfl⟩ := List.mem_map.mp hp
    exact Strings.splitAux_no_sep sep s.data [] (by simp) l hl

theorem Strings.prefixOf_eq_append (p s : List Char) (h : Strings.prefixOf p s = true) :
    s = p ++ s.drop p.length := by
  induction p generalizing s with
  | nil => simp
  | cons a p ih =>
    cases s with
    | nil => simp [Strings.prefixOf] at h
    | cons b s =>
      simp only [Strings.prefixOf, Bool.and_eq_true, beq_iff_eq] at h
      obtain ⟨hab, hps⟩ := h
      subst hab
      simp only [List.length_cons, List.drop_succ_cons, List.cons_append, List.cons.injEq,
        true_and]
      exact ih s hps

/-- A text with the prefix `pre` is `pre` followed by what `TrimPrefix` keeps. -/
theorem Strings.HasPrefix_eq_append (s pre : String) (h : Strings.HasPrefix s pre = true) :
    s = pre ++ Strings.TrimPrefix s pre := by
  unfold Strings.TrimPrefix
  rw [if_pos h]
  apply String.ext
  rw [String.data_append]
  exact Strings.prefixOf_eq_append pre.data s.data h

theorem buildFormLoop_succ (rest : List String) (i : Nat) (b : String) :
    buildFormLoop rest (i + 1) b =
      b ++ String.join (rest.map (fun p => "&" ++ Strings.TrimSpace p ++ "=test")) := by
  induction rest generalizing i b with
  | nil => simp [buildFormLoop, String.join]
  | cons p rest ih =>
    simp only [buildFormLoop, List.map_cons]
    rw [String.join_cons_eq]
    simp only [Nat.succ_pos, if_true, Nat.succ_ne_zero, if_false, gt_iff_lt, Nat.zero_lt_succ,
      ↓reduceIte]
    rw [ih]
    simp only [String.append_assoc]

theorem extractPayloadLoop_skip (pre rest : List String)
    (hpre : ∀ x ∈ pre, Strings.HasPrefix (Strings.TrimSpace x) "Payload:" = false) :
    extractPayloadLoop (pre ++ rest) = extractPayloadLoop rest := by
  induction pre with
  | nil => rfl
  | cons x xs ih =>
    have hx := hpre x (List.mem_cons_self _ _)
    simp only [List.cons_append, extractPayloadLoop, hx, Bool.false_eq_true, if_false]
    exact ih (fun y hy => hpre y (List.mem_cons_of_mem _ hy))

theorem extractPayloadLoop_none (lines : List String)
    (h : ∀ x ∈ lines, Strings.HasPrefix (Strings.TrimSpace x) "Payload:" = false) :
    extractPayloadLoop lines = "" := by
  have := extractPayloadLoop_skip lines [] h
  simpa [extractPayloadLoop] using this

/-! ## Lemmas on maps -/

theorem Map.get_put_same {α : Type} (m : List (String × α)) (k : String) (v : α) :
    Map.get (Map.put m k v) k = some v := by
  induction m with
  | nil => simp [Map.put, Map.get]
  | cons e t ih =>
    obtain ⟨k', v'⟩ := e
    by_cases h : k' = k
    · simp [Map.put, Map.get, h]
    · simp [Map.put, Map.get, h, ih]

theorem Map.get_put_ne {α : Type} (m : List (String × α)) (k k2 : String) (v : α)
    (hne : k ≠ k2) : Map.get (Map.put m k v) k2 = Map.get m k2 := by
  induction m with
  | nil => simp [Map.put, Map.get, hne]
  | cons e t ih =>
    obtain ⟨k', v'⟩ := e
    by_cases h : k' = k
    · subst h
      simp [Map.put, Map.get, hne]
    · by_cases h2 : k' = k2
      · subst h2
        simp [Map.put, Map.get, h]
      · simp [Map.put, Map.get, h, h2, ih]

theorem Map.get_del_same {α : Type} (m : List (String × α)) (k : String) :
    Map.get (Map.del m k) k = none := by
  induction m with
  | nil => simp [Map.del, Map.get]
  | cons e t ih =>
    obtain ⟨k', v'⟩ := e
    by_cases h : k' = k
    · simp [Map.del, h, ih]
    · simp [Map.del, Map.get, h, ih]

theorem Map.get_del_ne {α : Type} (m : List (String × α)) (k k2 : String) (hne : k ≠ k2) :
    Map.get (Map.del m k) k2 = Map.get m k2 := by
  induction m with
  | nil => simp [Map.del, Map.get]
  | cons e t ih =>
    obtain ⟨k', v'⟩ := e
    by_cases h : k' = k
    · subst h
      simp [Map.del, Map.get, hne, ih]
    · by_cases h2 : k' = k2
      · subst h2
        simp [Map.del, Map.get, h]
      · simp [Map.del, Map.get, h, h2, ih]

/-! ## Lemmas on the builders -/

theorem buildJSONLoop_succ_get (rest : List String) (i : Nat) (m : List (String × String))
    (k : String) :
    Map.get (buildJSONLoop rest (i + 1) m) k =
      if k ∈ rest.map Strings.TrimSpace then some "test" else Map.get m k := by
  induction rest generalizing i m with
  | nil => simp [buildJSONLoop]
  | cons p rest ih =>
    simp only [buildJSONLoop, Nat.succ_ne_zero, if_false, List.map_cons, List.mem_cons]
    rw [ih]
    by_cases hk : k ∈ rest.map Strings.TrimSpace
    · simp [hk]
    · by_cases hp : k = Strings.TrimSpace p
      · subst hp
        simp [Map.get_put_same]
      · simp only [hk, hp, or_self, if_false]
        exact Map.get_put_ne m _ k _ (fun h => hp h.symm)

/-- Lookup in the map built by `buildJSONData`, for the pieces `p1 :: rest`. -/
theorem buildJSONMap_get (params p1 : String) (rest : List String)
    (hsp : Strings.Split params ',' = p1 :: rest) (k : String) :
    Map.get (buildJSONMap params) k =
      if k ∈ rest.map Strings.TrimSpace then some "test"
      else if k = Strings.TrimSpace p1 then some "1*" else none := by
  unfold buildJSONMap
  rw [hsp]
  simp only [buildJSONLoop, if_true]
  rw [buildJSONLoop_succ_get]
  by_cases hk : k ∈ rest.map Strings.TrimSpace
  · simp [hk]
  · simp only [hk, if_false]
    by_cases hp : k = Strings.TrimSpace p1
    · subst hp
      simp [Map.put, Map.get]
    · have hp2 : ¬ Strings.TrimSpace p1 = k := fun h => hp h.symm
      simp [Map.put, Map.get, hp, hp2]

/-- The text `json.Marshal` returns is never empty. -/
theorem Json.Marshal_ne_empty (m : List (String × String)) : Json.Marshal m ≠ "" := by
  intro h
  have hl := congrArg String.length h
  unfold Json.Marshal at hl
  simp only [String.length_append] at hl
  have h1 : ("\x7b" : String).length = 1 := by decide
  have h0 : ("" : String).length = 0 := by decide
  omega

/-- The text `buildFormData` returns is never empty. -/
theorem buildFormData_ne_empty (params : String) : buildFormData params ≠ "" := by
  intro h
  have hl := congrArg String.length h
  cases hsp : Strings.Split params ',' with
  | nil => exact absurd hsp (Strings.Split_ne_nil params ',')
  | cons p1 rest =>
    unfold buildFormData at hl
    simp only [hsp, buildFormLoop] at hl
    rw [buildFormLoop_succ] at hl
    simp only [Nat.lt_irrefl, if_false, if_true, String.length_append] at hl
    have h1 : ("=1*" : String).length = 3 := by decide
    have h0 : ("" : String).length = 0 := by decide
    omega

/-! ## Lemmas on the registry -/

theorem workerStore_get_same (m : List (String × ScanResult)) (id : String) (res : ScanResult) :
    ∃ r, Map.get (workerStore m id res) id = some r ∧ r.Status ≠ "running" := by
  unfold workerStore
  by_cases h : res.Status = "cancelled"
  · refine ⟨_, Map.get_put_same _ _ _, ?_⟩
    simp only [h, ne_eq, not_true_eq_false, if_false]
    decide
  · refine ⟨_, Map.get_put_same _ _ _, ?_⟩
    simp only [h, ne_eq, not_false_eq_true, if_true]
    decide

theorem workerStore_get_ne (m : List (String × ScanResult)) (id id2 : String) (res : ScanResult)
    (hne : id ≠ id2) : Map.get (workerStore m id res) id2 = Map.get m id2 := by
  unfold workerStore
  exact Map.get_put_ne _ _ _ _ hne

theorem submitOne_preserves (s : State) (input : ScanInput) (level risk threads : Int)
    (timeBased : Bool) (id : String) (h : RunningHasSignal s) :
    RunningHasSignal (submitOne s input level risk threads timeBased id).2 := by
  intro id2 r hr hrun
  by_cases hid : id = id2
  · subst hid
    exact ⟨_, Map.get_put_same _ _ _⟩
  · simp only [submitOne] at hr ⊢
    rw [Map.get_put_ne _ _ _ _ hid] at hr ⊢
    exact h id2 r hr hrun

theorem cancelScan_preserves (s : State) (id : String) (h : RunningHasSignal s) :
    RunningHasSignal (cancelScan s id).2 := by
  unfold cancelScan
  cases hc : Map.get s.scanCancel id with
  | none => exact h
  | some ch =>
    intro id2 r hr hrun
    simp only at hr ⊢
    by_cases hid : id = id2
    · subst hid
      exfalso
      cases hres : Map.get s.scanResults id with
      | none =>
        rw [hres] at hr
        simp only [hres] at hr
        cases hr
      | some res =>
        rw [hres] at hr
        simp only [Map.get_put_same, Option.some.injEq] at hr
        subst hr
        have h2 : ("cancelled" : String) = "running" := hrun
        exact absurd h2 (by decide)
    · rw [Map.get_del_ne _ _ _ hid]
      cases hres : Map.get s.scanResults id with
      | none =>
        rw [hres] at hr
        exact h id2 r hr hrun
      | some res =>
        rw [hres] at hr
        simp only [Map.get_put_ne _ _ _ _ hid] at hr
        exact h id2 r hr hrun

theorem step_preserves (s s2 : State) (a : Action) (h : RunningHasSignal s)
    (hstep : step caseTable s a = some s2) : RunningHasSignal s2 := by
  cases a with
  | submit input level risk threads timeBased id =>
    simp only [step, Option.some.injEq] at hstep
    subst hstep
    exact submitOne_preserves s input level risk threads timeBased id h
  | runnerReturn w ev =>
    simp only [step] at hstep
    split at hstep
    · cases hstep
    · split at hstep
      · split at hstep
        · split at hstep
          · simp only [Option.some.injEq] at hstep
            subst hstep
            exact h
          · cases hstep
        · cases hstep
      · cases hstep
  | workerWrite w =>
    simp only [step] at hstep
    split at hstep
    · cases hstep
    · rename_i wk _
      split at hstep
      · rename_i res _
        simp only [Option.some.injEq] at hstep
        subst hstep
        intro id2 r hr hrun
        simp only at hr ⊢
        by_cases hid : wk.id = id2
        · subst hid
          obtain ⟨r2, hr2, hne⟩ := workerStore_get_same s.scanResults wk.id res
          rw [hr2] at hr
          cases hr
          exact absurd hrun hne
        · rw [workerStore_get_ne _ _ _ _ hid] at hr
          exact h id2 r hr hrun
      · cases hstep
  | cancel id =>
    simp only [step, Option.some.injEq] at hstep
    subst hstep
    exact cancelScan_preserves s id h

theorem run_preserves (acts : List Action) (s s2 : State) (h : RunningHasSignal s)
    (hrun : run caseTable s acts = some s2) : RunningHasSignal s2 := by
  induction acts generalizing s with
  | nil =>
    simp only [run, Option.some.injEq] at hrun
    subst hrun
    exact h
  | cons a as ih =>
    simp only [run] at hrun
    cases hst : step caseTable s a with
    | none => rw [hst] at hrun; cases hrun
    | some s1 =>
      rw [hst] at hrun
      exact ih s1 (step_preserves s s1 a h hst) hrun

/-- Every reachable state satisfies `RunningHasSignal`. -/
theorem reachable_runningHasSignal (s : State) (h : Reachable caseTable s) : RunningHasSignal s := by
  obtain ⟨acts, hacts⟩ := h
  refine run_preserves acts State.init s ?_ hacts
  intro id r hr
  simp [State.init, Map.get] at hr

/-! ## Lemmas on the case table -/

/-- The outcome of the runner for a request without parameters and without
the fuzz marker. -/
theorem runner_skipped_eq (input : ScanInput) (ev : SelectEvent)
    (level risk threads : Int) (timeBased : Bool)
    (h : input.BodyParams = "" ∧ input.FormParams = "" ∧
      Strings.Contains input.URL "FUZZ" = false) :
    processInputWithCancel caseTable input ev level risk threads timeBased =
      { command := none,
        result := some { ID := "", URL := input.URL, Vulnerable := false, Payload := "",
                         Status := "skipped" } } := by
  obtain ⟨hb, hf, hu⟩ := h
  unfold processInputWithCancel
  simp [hb, hf, hu]

/-- The outcome of the runner for a request that is not skipped: a command,
and the result that the event of its `select` decides. -/
theorem runner_active_eq (input : ScanInput) (ev : SelectEvent)
    (level risk threads : Int) (timeBased : Bool)
    (hact : ¬ (input.BodyParams = "" ∧ input.FormParams = "" ∧
      Strings.Contains input.URL "FUZZ" = false)) :
    ∃ cmd, (processInputWithCancel caseTable input ev level risk threads timeBased).command
        = some cmd ∧
      (processInputWithCancel caseTable input ev level risk threads timeBased).result =
        (match ev with
          | SelectEvent.cancelFired none _ => none
          | SelectEvent.cancelFired (some _) _ =>
            some { ID := "", URL := input.URL, Vulnerable := false, Payload := "",
                   Status := "cancelled" }
          | SelectEvent.doneFired output =>
            some { ID := "", URL := input.URL, Vulnerable := decide (extractPayload output ≠ ""),
                   Payload := extractPayload output, Status := "done" }) := by
  have hj : buildJSONData input.BodyParams ≠ "" := Json.Marshal_ne_empty _
  have hf : buildFormData input.FormParams ≠ "" := buildFormData_ne_empty _
  unfold processInputWithCancel
  by_cases hb : input.BodyParams = ""
  · by_cases hfp : input.FormParams = ""
    · have hu : Strings.Contains input.URL "FUZZ" = true := by
        by_cases hu : Strings.Contains input.URL "FUZZ" = true
        · exact hu
        · exact absurd ⟨hb, hfp, by simpa using hu⟩ hact
      cases ev with
      | cancelFired process k => cases process <;> simp [hb, hfp, hu]
      | doneFired o => simp [hb, hfp, hu]
    · cases ev with
      | cancelFired process k => cases process <;> simp [hb, hfp, hf]
      | doneFired o => simp [hb, hfp, hf]
  · cases ev with
    | cancelFired process k => cases process <;> simp [hb, hj]
    | doneFired o => simp [hb, hj]

/-- The result of the runner, and whether it builds a command, do not depend
on the case table. -/
theorem processInputWithCancel_table (t1 t2 : Char → Char) (input : ScanInput)
    (ev : SelectEvent) (level risk threads : Int) (timeBased : Bool) :
    (processInputWithCancel t1 input ev level risk threads timeBased).result =
      (processInputWithCancel t2 input ev level risk threads timeBased).result ∧
    ((processInputWithCancel t1 input ev level risk threads timeBased).command = none ↔
      (processInputWithCancel t2 input ev level risk threads timeBased).command = none) := by
  by_cases hc : input.BodyParams = "" ∧ input.FormParams = "" ∧
      Strings.Contains input.URL "FUZZ" = false
  · rw [runner_skipped_eq input ev level risk threads timeBased hc,
      runner_skipped_eq input ev level risk threads timeBased hc]
    exact ⟨rfl, Iff.rfl⟩
  · obtain ⟨c1, hc1, hr1⟩ := @runner_active_eq t1 input ev level risk threads timeBased hc
    obtain ⟨c2, hc2, hr2⟩ := @runner_active_eq t2 input ev level risk threads timeBased hc
    rw [hc1, hc2, hr1, hr2]
    simp

/-- The steps of the registry do not depend on the case table. -/
theorem step_table (t1 t2 : Char → Char) (s : State) (a : Action) :
    step t1 s a = step t2 s a := by
  cases a with
  | submit input level risk threads timeBased id => rfl
  | runnerReturn w ev =>
    simp only [step]
    cases s.workers[w]? with
    | none => rfl
    | some wk =>
      have h := processInputWithCancel_table t1 t2 wk.input ev wk.level wk.risk wk.threads
        wk.timeBased
      simp only [h.1, h.2]
  | workerWrite w => rfl
  | cancel id => rfl

/-- The runs of the registry do not depend on the case table. -/
theorem run_table (t1 t2 : Char → Char) (s : State) (acts : List Action) :
    run t1 s acts = run t2 s acts := by
  induction acts generalizing s with
  | nil => rfl
  | cons a as ih =>
    simp only [run, step_table t1 t2 s a]
    cases step t2 s a with
    | none => rfl
    | some s1 => exact ih s1

variable (caseTable)

/-! ## Theorems -/

/-- C8: with `p1, ..., pk` (`k ≥ 1`) the pieces of the form-parameter string
after splitting on `","`, `buildFormData` returns `trim(p1) + "=1*"` followed,
for each later piece in order, by `"&" + trim(pi) + "=test"`; `"a,b,c"` builds
into `"a=1*&b=test&c=test"`. -/
theorem buildFormData_closed_form (params : String) :
    (∃ p1 rest, Strings.Split params ',' = p1 :: rest ∧
      List.intercalate [','] ((p1 :: rest).map String.data) = params.data ∧
      (∀ p ∈ p1 :: rest, ',' ∉ p.data) ∧
      buildFormData params =
        Strings.TrimSpace p1 ++ "=1*" ++
          String.join (rest.map (fun p => "&" ++ Strings.TrimSpace p ++ "=test"))) ∧
    buildFormData "a,b,c" = "a=1*&b=test&c=test" := by
  refine ⟨?_, by decide⟩
  have hspec := Strings.Split_spec params ','
  cases hsp : Strings.Split params ',' with
  | nil => exact absurd hsp (Strings.Split_ne_nil params ',')
  | cons p1 rest =>
    rw [hsp] at hspec
    refine ⟨p1, rest, rfl, hspec.1, hspec.2, ?_⟩
    unfold buildFormData
    simp only [hsp, buildFormLoop]
    rw [buildFormLoop_succ]
    simp

/-- C7: `extractPayload` splits the output on `"\n"` and returns, for the
first line whose trimmed form begins with `"Payload:"`, the trimmed remainder
after that prefix; with no such line it returns the empty string and a
completion outcome from that output has `Vulnerable = false`. A text whose
first such line is `"  Payload: 1' OR '1'='1"` yields `"1' OR '1'='1"`. -/
theorem extractPayload_first_match (output : String) :
    (∀ pre l post, Strings.Split output '\n' = pre ++ l :: post →
      (∀ x ∈ pre, Strings.HasPrefix (Strings.TrimSpace x) "Payload:" = false) →
      Strings.HasPrefix (Strings.TrimSpace l) "Payload:" = true →
      ∃ rem, Strings.TrimSpace l = "Payload:" ++ rem ∧
        extractPayload output = Strings.TrimSpace rem) ∧
    ((∀ x ∈ Strings.Split output '\n',
        Strings.HasPrefix (Strings.TrimSpace x) "Payload:" = false) →
      extractPayload output = "" ∧
      ∀ input level risk threads timeBased r,
        (processInputWithCancel caseTable input (SelectEvent.doneFired output) level risk threads
          timeBased).result = some r →
        r.Vulnerable = false ∧ r.Payload = "") ∧
    (∀ pre post,
      Strings.Split output '\n' = pre ++ "  Payload: 1\x27 OR \x271\x27=\x271" :: post →
      (∀ x ∈ pre, Strings.HasPrefix (Strings.TrimSpace x) "Payload:" = false) →
      extractPayload output = "1\x27 OR \x271\x27=\x271") := by
  refine ⟨?_, ?_, ?_⟩
  · intro pre l post hsp hpre hl
    refine ⟨Strings.TrimPrefix (Strings.TrimSpace l) "Payload:",
      Strings.HasPrefix_eq_append _ _ hl, ?_⟩
    unfold extractPayload
    rw [hsp, extractPayloadLoop_skip pre _ hpre]
    simp [extractPayloadLoop, hl]
  · intro hnone
    have hempty : extractPayload output = "" := extractPayloadLoop_none _ hnone
    refine ⟨hempty, ?_⟩
    intro input level risk threads timeBased r hr
    unfold processInputWithCancel at hr
    simp only [hempty] at hr
    split_ifs at hr
    all_goals
      have hr2 := Option.some.inj hr
      subst hr2
      exact ⟨rfl, rfl⟩
  · intro pre post hsp hpre
    unfold extractPayload
    rw [hsp, extractPayloadLoop_skip pre _ hpre]
    have h1 : Strings.HasPrefix (Strings.TrimSpace "  Payload: 1\x27 OR \x271\x27=\x271")
        "Payload:" = true := by decide
    have h2 : Strings.TrimSpace (Strings.TrimPrefix
        (Strings.TrimSpace "  Payload: 1\x27 OR \x271\x27=\x271") "Payload:")
          = "1\x27 OR \x271\x27=\x271" := by decide
    simp only [extractPayloadLoop, h1, if_true, h2]

/-- C7 at a concrete output: the second of three lines is the first match. -/
theorem extractPayload_first_match_witness :
    extractPayload "x\n  Payload: 1\x27 OR \x271\x27=\x271\nPayload: z"
      = "1\x27 OR \x271\x27=\x271" :=
  (extractPayload_first_match sampleCaseTable "x\n  Payload: 1\x27 OR \x271\x27=\x271\nPayload: z").2.2
    ["x"] ["Payload: z"] (by decide) (by decide)

/-- C9 fails when the first name is declared again: for `"a,a"` the object is
`{"a":"test"}`, so the first parameter does not map to `"1*"`. -/
theorem buildJSONData_repeated_first_name :
    Strings.Split "a,a" ',' = ["a", "a"] ∧
    buildJSONData "a,a" = "\x7b\"a\":\"test\"\x7d" ∧
    Map.get (buildJSONMap "a,a") (Strings.TrimSpace "a") = some "test" ∧
    Map.get (buildJSONMap "a,a") (Strings.TrimSpace "a") ≠ some "1*" := by
  decide

/-- C9 (amended): `buildJSONData` returns the JSON encoding of a map `m` whose
keys are the trimmed declared names `p1 :: rest`, in which every name declared
after the first maps to `"test"` and the first name maps to `"1*"` when it is
not declared again; `"a,b"` builds into `{"a":"1*","b":"test"}`. -/
theorem buildJSONData_object (params : String) :
    (∃ p1 rest m, Strings.Split params ',' = p1 :: rest ∧
      buildJSONData params = Json.Marshal m ∧
      (∀ p ∈ rest, Map.get m (Strings.TrimSpace p) = some "test") ∧
      ((∀ p ∈ rest, Strings.TrimSpace p ≠ Strings.TrimSpace p1) →
        Map.get m (Strings.TrimSpace p1) = some "1*") ∧
      (∀ k, Map.get m k ≠ none →
        k = Strings.TrimSpace p1 ∨ ∃ p ∈ rest, k = Strings.TrimSpace p)) ∧
    buildJSONData "a,b" = "\x7b\"a\":\"1*\",\"b\":\"test\"\x7d" := by
  refine ⟨?_, by decide⟩
  cases hsp : Strings.Split params ',' with
  | nil => exact absurd hsp (Strings.Split_ne_nil params ',')
  | cons p1 rest =>
    refine ⟨p1, rest, buildJSONMap params, rfl, rfl, ?_, ?_, ?_⟩
    · intro p hp
      rw [buildJSONMap_get params p1 rest hsp]
      have : Strings.TrimSpace p ∈ rest.map Strings.TrimSpace := List.mem_map_of_mem _ hp
      simp [this]
    · intro hne
      rw [buildJSONMap_get params p1 rest hsp]
      have : Strings.TrimSpace p1 ∉ rest.map Strings.TrimSpace := by
        intro hmem
        obtain ⟨p, hp, hpe⟩ := List.mem_map.mp hmem
        exact hne p hp hpe
      simp [this]
    · intro k hk
      rw [buildJSONMap_get params p1 rest hsp] at hk
      by_cases hmem : k ∈ rest.map Strings.TrimSpace
      · obtain ⟨p, hp, hpe⟩ := List.mem_map.mp hmem
        exact Or.inr ⟨p, hp, hpe.symm⟩
      · by_cases hp : k = Strings.TrimSpace p1
        · exact Or.inl hp
        · simp [hmem, hp] at hk

/-- C9 (amended) at `"a,b"`, where the first name is not declared again: the
encoded map sends `"a"` to `"1*"` and `"b"` to `"test"`. -/
theorem buildJSONData_object_witness :
    ∃ m, buildJSONData "a,b" = Json.Marshal m ∧
      Map.get m "a" = some "1*" ∧ Map.get m "b" = some "test" := by
  obtain ⟨p1, rest, m, hsp, hm, hrest, hfirst, _⟩ := (buildJSONData_object "a,b").1
  have hab : Strings.Split "a,b" ',' = ["a", "b"] := by decide
  rw [hab] at hsp
  injection hsp with h1 h2
  subst h1
  subst h2
  have ha : Strings.TrimSpace "a" = "a" := by decide
  have hb : Strings.TrimSpace "b" = "b" := by decide
  refine ⟨m, hm, ?_, ?_⟩
  · have := hfirst (by
      intro p hp
      simp only [List.mem_singleton] at hp
      subst hp
      decide)
    rwa [ha] at this
  · have := hrest "b" (by simp)
    rwa [hb] at this

/-- C10: the runner returns the skipped outcome, without building a command,
exactly when `body_params` and `form_params` are empty and the URL does not
contain `"FUZZ"`; the bodies built by `buildJSONData` and `buildFormData` are
never empty. -/
theorem processInputWithCancel_skipped_iff (input : ScanInput) (ev : SelectEvent)
    (level risk threads : Int) (timeBased : Bool) :
    (((processInputWithCancel caseTable input ev level risk threads timeBased).result =
          some { ID := "", URL := input.URL, Vulnerable := false, Payload := "",
                 Status := "skipped" } ∧
        (processInputWithCancel caseTable input ev level risk threads timeBased).command = none) ↔
      (input.BodyParams = "" ∧ input.FormParams = "" ∧
        Strings.Contains input.URL "FUZZ" = false)) ∧
    ((∃ r, (processInputWithCancel caseTable input ev level risk threads timeBased).result = some r ∧
          r.Status = "skipped") ↔
      (input.BodyParams = "" ∧ input.FormParams = "" ∧
        Strings.Contains input.URL "FUZZ" = false)) ∧
    (∀ params, buildJSONData params ≠ "") ∧ (∀ params, buildFormData params ≠ "") := by
  have key : (input.BodyParams = "" ∧ input.FormParams = "" ∧
        Strings.Contains input.URL "FUZZ" = false) →
      processInputWithCancel caseTable input ev level risk threads timeBased =
        { command := none,
          result := some { ID := "", URL := input.URL, Vulnerable := false, Payload := "",
                           Status := "skipped" } } := by
    rintro ⟨hb, hf, hu⟩
    unfold processInputWithCancel
    simp [hb, hf, hu]
  have back : ∀ r, (processInputWithCancel caseTable input ev level risk threads timeBased).result
        = some r → r.Status = "skipped" →
      (input.BodyParams = "" ∧ input.FormParams = "" ∧
        Strings.Contains input.URL "FUZZ" = false) := by
    intro r hr hst
    by_cases hb : input.BodyParams = ""
    · by_cases hf : input.FormParams = ""
      · by_cases hu : Strings.Contains input.URL "FUZZ" = true
        · exfalso
          unfold processInputWithCancel at hr
          simp only [hb, hf, hu, ne_eq, not_true_eq_false, if_false, not_true, and_false] at hr
          cases ev with
          | cancelFired process k =>
            cases process with
            | none => simp at hr
            | some pr =>
              have hr2 := Option.some.inj hr
              subst hr2
              have h2 : ("cancelled" : String) = "skipped" := hst
              exact absurd h2 (by decide)
          | doneFired o =>
            have hr2 := Option.some.inj hr
            subst hr2
            have h2 : ("done" : String) = "skipped" := hst
            exact absurd h2 (by decide)
        · exact ⟨hb, hf, by simpa using hu⟩
      · exfalso
        unfold processInputWithCancel at hr
        simp only [hb, hf, ne_eq, not_true_eq_false, if_false, not_false_eq_true, if_true,
          buildFormData_ne_empty, false_and] at hr
        cases ev with
        | cancelFired process k =>
          cases process with
          | none => simp at hr
          | some pr =>
            have hr2 := Option.some.inj hr
            subst hr2
            have h2 : ("cancelled" : String) = "skipped" := hst
            exact absurd h2 (by decide)
        | doneFired o =>
          have hr2 := Option.some.inj hr
          subst hr2
          have h2 : ("done" : String) = "skipped" := hst
          exact absurd h2 (by decide)
    · exfalso
      unfold processInputWithCancel at hr
      have hj : buildJSONData input.BodyParams ≠ "" := Json.Marshal_ne_empty _
      simp only [hb, ne_eq, not_false_eq_true, if_true, hj, false_and, if_false] at hr
      cases ev with
      | cancelFired process k =>
        cases process with
        | none => simp at hr
        | some pr =>
          have hr2 := Option.some.inj hr
          subst hr2
          have h2 : ("cancelled" : String) = "skipped" := hst
          exact absurd h2 (by decide)
      | doneFired o =>
        have hr2 := Option.some.inj hr
        subst hr2
        have h2 : ("done" : String) = "skipped" := hst
        exact absurd h2 (by decide)
  refine ⟨⟨?_, ?_⟩, ⟨?_, ?_⟩, fun p => Json.Marshal_ne_empty _, buildFormData_ne_empty⟩
  · rintro ⟨hr, _⟩
    exact back _ hr rfl
  · intro h
    rw [key h]
    exact ⟨rfl, rfl⟩
  · rintro ⟨r, hr, hst⟩
    exact back r hr hst
  · intro h
    rw [key h]
    exact ⟨_, rfl, rfl⟩

/-- C10 at a request without parameters and without the fuzz marker. -/
theorem processInputWithCancel_skipped_iff_witness :
    (processInputWithCancel sampleCaseTable plainRequest (SelectEvent.doneFired "") 1 1 1 false).result =
        some { ID := "", URL := plainRequest.URL, Vulnerable := false, Payload := "",
               Status := "skipped" } ∧
      (processInputWithCancel sampleCaseTable plainRequest (SelectEvent.doneFired "") 1 1 1 false).command
        = none :=
  (processInputWithCancel_skipped_iff sampleCaseTable plainRequest (SelectEvent.doneFired "") 1 1 1 false).1.mpr
    (by decide)

/-- C5: in a reachable state, `cancelScan` on a job whose stored status is
`"running"` answers `{status: "cancelled"}` and stores the status
`"cancelled"`; a second `cancelScan` on the same id right after answers
not-found and leaves the state unchanged. -/
theorem cancelScan_twice (s : State) (id : String) (r : ScanResult) (hs : Reachable caseTable s)
    (hr : Map.get s.scanResults id = some r) (hrun : r.Status = "running") :
    (cancelScan s id).1 = Response.status 200 "cancelled" ∧
    Map.get (cancelScan s id).2.scanResults id = some { r with Status := "cancelled" } ∧
    cancelScan (cancelScan s id).2 id =
      (Response.error 404 "Scan ID not found or already finished", (cancelScan s id).2) := by
  obtain ⟨ch, hch⟩ := reachable_runningHasSignal s hs id r hr hrun
  have h1 : cancelScan s id =
      (Response.status 200 "cancelled",
        { scanResults := Map.put s.scanResults id { r with Status := "cancelled" },
          scanCancel := Map.del s.scanCancel id,
          workers := closeChan s.workers ch }) := by
    unfold cancelScan
    simp only [hch, hr]
  rw [h1]
  refine ⟨rfl, Map.get_put_same _ _ _, ?_⟩
  unfold cancelScan
  simp only [Map.get_del_same]

/-- C5 at the state in which job `"j1"` has just been submitted. -/
theorem cancelScan_twice_witness :
    (cancelScan submittedState "j1").1 = Response.status 200 "cancelled" ∧
    Map.get (cancelScan submittedState "j1").2.scanResults "j1" =
      some { ID := "j1", URL := fuzzRequest.URL, Vulnerable := false, Payload := "",
             Status := "cancelled" } ∧
    cancelScan (cancelScan submittedState "j1").2 "j1" =
      (Response.error 404 "Scan ID not found or already finished",
        (cancelScan submittedState "j1").2) :=
  cancelScan_twice sampleCaseTable submittedState "j1"
    { ID := "j1", URL := fuzzRequest.URL, Vulnerable := false, Payload := "",
      Status := "running" }
    ⟨[Action.submit fuzzRequest 1 1 1 false "j1"], rfl⟩ (by decide) rfl

/-- C1 (code): for a request without parameters and without the fuzz marker
the runner returns `"skipped"` and builds no command, and the worker then
stores the status `"done"`, which is what `handleStatus` and `listAllScans`
report. -/
theorem skipped_job_is_stored_done :
    processInputWithCancel caseTable plainRequest (SelectEvent.doneFired "") 1 1 1 false =
      { command := none,
        result := some { ID := "", URL := "http://t/p?q=1", Vulnerable := false, Payload := "",
                         Status := "skipped" } } ∧
    (run caseTable State.init [Action.submit plainRequest 1 1 1 false "j1",
        Action.runnerReturn 0 (SelectEvent.doneFired ""),
        Action.workerWrite 0]).map (fun s => handleStatus s "j1")
      = some (Response.status 200 "done") ∧
    (run caseTable State.init [Action.submit plainRequest 1 1 1 false "j1",
        Action.runnerReturn 0 (SelectEvent.doneFired ""),
        Action.workerWrite 0]).map listAllScans
      = some (Response.records 200
          [{ ID := "j1", URL := "http://t/p?q=1", Vulnerable := false, Payload := "",
             Status := "done" }]) := by
  refine ⟨runner_skipped_eq plainRequest _ 1 1 1 false (by decide), ?_, ?_⟩
  · rw [run_table caseTable sampleCaseTable]
    decide
  · rw [run_table caseTable sampleCaseTable]
    decide

/-- C2 (code): after the worker of `"j1"` has written its completion, the
status is `"done"`, and `cancelScan` on `"j1"` still answers
`{status: "cancelled"}` and changes the stored status to `"cancelled"`. -/
theorem cancel_after_completion_succeeds :
    (run caseTable State.init completedTrace).map (fun s => Map.get s.scanResults "j1") =
      some (some { ID := "j1", URL := "http://t/p?q=FUZZ", Vulnerable := true,
                   Payload := "q=1 AND 1=1", Status := "done" }) ∧
    (run caseTable State.init completedTrace).map (fun s => (cancelScan s "j1").1) =
      some (Response.status 200 "cancelled") ∧
    (run caseTable State.init completedTrace).map
        (fun s => Map.get (cancelScan s "j1").2.scanResults "j1") =
      some (some { ID := "j1", URL := "http://t/p?q=FUZZ", Vulnerable := true,
                   Payload := "q=1 AND 1=1", Status := "cancelled" }) := by
  rw [run_table caseTable sampleCaseTable]
  decide

/-- C3 (code): a stored terminal status changes in both directions: `"done"`
becomes `"cancelled"` when `cancelScan` follows the worker write, and
`"cancelled"` becomes `"done"` when the worker write follows `cancelScan`. -/
theorem terminal_status_changes :
    ((run caseTable State.init completedTrace).bind (fun s => statusOf s "j1") = some "done" ∧
      (run caseTable State.init (completedTrace ++ [Action.cancel "j1"])).bind
        (fun s => statusOf s "j1") = some "cancelled") ∧
    ((run caseTable State.init cancelBeforeWriteTrace).bind (fun s => statusOf s "j1")
        = some "cancelled" ∧
      (run caseTable State.init (cancelBeforeWriteTrace ++ [Action.workerWrite 0])).bind
        (fun s => statusOf s "j1") = some "done") := by
  simp only [run_table caseTable sampleCaseTable]
  decide

/-- C4 (code): a reachable state stores, for job `"j1"`, the status
`"cancelled"` together with `Vulnerable = true` and a non-empty payload. -/
theorem cancelled_with_completion_fields :
    ∃ s r, Reachable caseTable s ∧ Map.get s.scanResults "j1" = some r ∧
      r.Status = "cancelled" ∧ r.Vulnerable = true ∧ r.Payload = "q=1 AND 1=1" := by
  have h : (run caseTable State.init (completedTrace ++ [Action.cancel "j1"])).bind
      (fun s => Map.get s.scanResults "j1") =
      some { ID := "j1", URL := "http://t/p?q=FUZZ", Vulnerable := true,
             Payload := "q=1 AND 1=1", Status := "cancelled" } := by
    rw [run_table caseTable sampleCaseTable]
    decide
  cases hrun : run caseTable State.init (completedTrace ++ [Action.cancel "j1"]) with
  | none =>
    rw [hrun] at h
    cases h
  | some s =>
    rw [hrun] at h
    exact ⟨s, _, ⟨_, hrun⟩, h, rfl, rfl, rfl⟩

variable {caseTable}

/-! ## Lemmas on the steps -/

/-- What a successful step is, case by case. -/
theorem step_cases (s s2 : State) (a : Action) (h : step caseTable s a = some s2) :
    (∃ input level risk threads timeBased id,
      a = Action.submit input level risk threads timeBased id ∧
      s2 = (submitOne s input level risk threads timeBased id).2) ∨
    (∃ w ev wk res, a = Action.runnerReturn w ev ∧ s.workers[w]? = some wk ∧
      wk.phase = Phase.inRunner ∧
      (processInputWithCancel caseTable wk.input ev wk.level wk.risk wk.threads wk.timeBased).result
        = some res ∧
      s2 = { s with workers := s.workers.set w { wk with phase := Phase.returned res } }) ∨
    (∃ w wk res, a = Action.workerWrite w ∧ s.workers[w]? = some wk ∧
      wk.phase = Phase.returned res ∧
      s2 = { s with scanResults := workerStore s.scanResults wk.id res,
                    workers := s.workers.set w { wk with phase := Phase.finished } }) ∨
    (∃ id, a = Action.cancel id ∧ s2 = (cancelScan s id).2) := by
  cases a with
  | submit input level risk threads timeBased id =>
    simp only [step, Option.some.injEq] at h
    exact Or.inl ⟨input, level, risk, threads, timeBased, id, rfl, h.symm⟩
  | runnerReturn w ev =>
    right; left
    simp only [step] at h
    split at h
    · cases h
    · rename_i wk hwk
      split at h
      · rename_i hph
        split at h
        · split at h
          · rename_i res hres
            simp only [Option.some.injEq] at h
            exact ⟨w, ev, wk, res, rfl, hwk, hph, hres, h.symm⟩
          · cases h
        · cases h
      · cases h
  | workerWrite w =>
    right; right; left
    simp only [step] at h
    split at h
    · cases h
    · rename_i wk hwk
      split at h
      · rename_i res hph
        simp only [Option.some.injEq] at h
        exact ⟨w, wk, res, rfl, hwk, hph, h.symm⟩
      · cases h
  | cancel id =>
    simp only [step, Option.some.injEq] at h
    exact Or.inr (Or.inr (Or.inr ⟨id, rfl, h.symm⟩))

/-- An invariant kept by every step holds after every run. -/
theorem run_invariant (P : State → Prop)
    (hstep : ∀ s a s2, P s → step caseTable s a = some s2 → P s2) :
    ∀ (acts : List Action) (s s2 : State), P s → run caseTable s acts = some s2 → P s2 := by
  intro acts
  induction acts with
  | nil =>
    intro s s2 hP hrun
    simp only [run, Option.some.injEq] at hrun
    subst hrun
    exact hP
  | cons a as ih =>
    intro s s2 hP hrun
    simp only [run] at hrun
    cases hst : step caseTable s a with
    | none => rw [hst] at hrun; cases hrun
    | some s1 =>
      rw [hst] at hrun
      exact ih s1 s2 (hstep s a s1 hP hst) hrun

/-- A run of unique ids is a run. -/
theorem runUnique_run (acts : List Action) (s s2 : State) (h : runUnique caseTable s acts = some s2) :
    run caseTable s acts = some s2 := by
  induction acts generalizing s with
  | nil => simpa [runUnique, run] using h
  | cons a as ih =>
    simp only [runUnique] at h
    split at h
    · cases hst : step caseTable s a with
      | none => rw [hst] at h; cases h
      | some s1 =>
        rw [hst] at h
        simp only [run, hst]
        exact ih s1 h
    · cases h

/-- The record `cancelScan` leaves under a key is the former one, with at most
its status set to `"cancelled"`. -/
theorem cancelScan_get (s : State) (id id2 : String) :
    Map.get (cancelScan s id).2.scanResults id2 = Map.get s.scanResults id2 ∨
    ∃ r, Map.get s.scanResults id2 = some r ∧
      Map.get (cancelScan s id).2.scanResults id2 = some { r with Status := "cancelled" } := by
  unfold cancelScan
  cases hc : Map.get s.scanCancel id with
  | none => exact Or.inl rfl
  | some ch =>
    cases hres : Map.get s.scanResults id with
    | none => exact Or.inl rfl
    | some res =>
      by_cases hid : id = id2
      · subst hid
        exact Or.inr ⟨res, hres, Map.get_put_same _ _ _⟩
      · exact Or.inl (Map.get_put_ne _ _ _ _ hid)

/-- What the runner can return: the URL of the request, `Vulnerable` exactly
with a non-empty payload, and one of three statuses. -/
theorem processInputWithCancel_result (input : ScanInput) (ev : SelectEvent)
    (level risk threads : Int) (timeBased : Bool) (r : ScanResult)
    (h : (processInputWithCancel caseTable input ev level risk threads timeBased).result = some r) :
    r.URL = input.URL ∧ (r.Vulnerable = true ↔ r.Payload ≠ "") ∧
    (r.Status = "skipped" ∨ r.Status = "cancelled" ∨ r.Status = "done") := by
  unfold processInputWithCancel at h
  dsimp only at h
  cases ev with
  | cancelFired process k =>
    cases process with
    | none =>
      split_ifs at h
      all_goals
        have h2 := Option.some.inj h
        subst h2
        exact ⟨rfl, by simp, Or.inl rfl⟩
    | some pr =>
      split_ifs at h
      all_goals
        have h2 := Option.some.inj h
        subst h2
        first
          | exact ⟨rfl, by simp, Or.inl rfl⟩
          | exact ⟨rfl, by simp, Or.inr (Or.inl rfl)⟩
  | doneFired o =>
    split_ifs at h
    all_goals
      have h2 := Option.some.inj h
      subst h2
      first
        | exact ⟨rfl, by simp, Or.inl rfl⟩
        | exact ⟨rfl, by simp, Or.inr (Or.inr rfl)⟩

/-- The command built for a request that is not skipped. -/
theorem runner_command_eq (input : ScanInput) (ev : SelectEvent)
    (level risk threads : Int) (timeBased : Bool)
    (hact : ¬ (input.BodyParams = "" ∧ input.FormParams = "" ∧
      Strings.Contains input.URL "FUZZ" = false)) :
    (processInputWithCancel caseTable input ev level risk threads timeBased).command =
      some (["python3", sqlmapPath, "-u",
              if Strings.Contains input.URL "FUZZ" then Strings.Replace1 input.URL "FUZZ" "1*"
              else input.URL] ++
            (if input.BodyParams ≠ "" then ["--data", buildJSONData input.BodyParams]
             else if input.FormParams ≠ "" then ["--data", buildFormData input.FormParams]
             else []) ++
            ["--batch", "--stop",
              "--level=" ++ Strings.fmtInt level,
              "--risk=" ++ Strings.fmtInt risk,
              "--threads=" ++ Strings.fmtInt threads,
              if timeBased then "--technique=BEUSTQ" else "--technique=BEUSQ",
              "--method=" ++ Strings.ToUpper caseTable input.HTTPMethod] ++
            input.Headers.map (fun kv => "--headers=" ++ (kv.1 ++ ": " ++ kv.2)) ++
            (if input.BodyParams ≠ "" then ["--headers=Content-Type: application/json"]
             else [])) := by
  have hj : buildJSONData input.BodyParams ≠ "" := Json.Marshal_ne_empty _
  have hf : buildFormData input.FormParams ≠ "" := buildFormData_ne_empty _
  unfold processInputWithCancel
  by_cases hb : input.BodyParams = ""
  · by_cases hfp : input.FormParams = ""
    · have hu : Strings.Contains input.URL "FUZZ" = true := by
        by_cases hu : Strings.Contains input.URL "FUZZ" = true
        · exact hu
        · exact absurd ⟨hb, hfp, by simpa using hu⟩ hact
      cases ev with
      | cancelFired process k => cases process <;> simp [hb, hfp, hu, List.map_map, Function.comp_def]
      | doneFired o => simp [hb, hfp, hu, List.map_map, Function.comp_def]
    · cases ev with
      | cancelFired process k =>
        cases process <;> simp [hb, hfp, hf, List.map_map, Function.comp_def]
      | doneFired o => simp [hb, hfp, hf, List.map_map, Function.comp_def]
  · cases ev with
    | cancelFired process k =>
      cases process <;> simp [hb, hj, List.map_map, Function.comp_def]
    | doneFired o => simp [hb, hj, List.map_map, Function.comp_def]

/-- For a request that is not skipped, a cancellation received while
`cmd.Process` is nil leaves the runner without a result. -/
theorem runner_nil_process_fault (input : ScanInput) (killFails : Bool)
    (level risk threads : Int) (timeBased : Bool)
    (hact : ¬ (input.BodyParams = "" ∧ input.FormParams = "" ∧
      Strings.Contains input.URL "FUZZ" = false)) :
    (processInputWithCancel caseTable input (SelectEvent.cancelFired none killFails) level risk threads
      timeBased).result = none := by
  have hj : buildJSONData input.BodyParams ≠ "" := Json.Marshal_ne_empty _
  have hf : buildFormData input.FormParams ≠ "" := buildFormData_ne_empty _
  unfold processInputWithCancel
  by_cases hb : input.BodyParams = ""
  · by_cases hfp : input.FormParams = ""
    · have hu : Strings.Contains input.URL "FUZZ" = true := by
        by_cases hu : Strings.Contains input.URL "FUZZ" = true
        · exact hu
        · exact absurd ⟨hb, hfp, by simpa using hu⟩ hact
      simp [hb, hfp, hu]
    · simp [hb, hfp, hf]
  · simp [hb, hj]

variable (caseTable)

/-! ## Theorems on the runner -/

/-- C11: for a request that is not skipped, the command the runner builds is
`python3`, the script path, `-u` and the URL after marker substitution, then
`--data` and the body exactly when one was built (the JSON body when
`body_params` is non-empty, else the form body when `form_params` is
non-empty), then `--batch`, `--stop`, level, risk, threads, the technique
flag and the upper-cased method, then one `--headers=` argument per header
entry and last the JSON content type exactly when `body_params` is
non-empty. -/
theorem processInputWithCancel_command (input : ScanInput) (ev : SelectEvent)
    (level risk threads : Int) (timeBased : Bool)
    (hact : ¬ (input.BodyParams = "" ∧ input.FormParams = "" ∧
      Strings.Contains input.URL "FUZZ" = false)) :
    (processInputWithCancel caseTable input ev level risk threads timeBased).command =
      some (["python3", sqlmapPath, "-u",
              if Strings.Contains input.URL "FUZZ" then Strings.Replace1 input.URL "FUZZ" "1*"
              else input.URL] ++
            (if input.BodyParams ≠ "" then ["--data", buildJSONData input.BodyParams]
             else if input.FormParams ≠ "" then ["--data", buildFormData input.FormParams]
             else []) ++
            ["--batch", "--stop",
              "--level=" ++ Strings.fmtInt level,
              "--risk=" ++ Strings.fmtInt risk,
              "--threads=" ++ Strings.fmtInt threads,
              if timeBased then "--technique=BEUSTQ" else "--technique=BEUSQ",
              "--method=" ++ Strings.ToUpper caseTable input.HTTPMethod] ++
            input.Headers.map (fun kv => "--headers=" ++ (kv.1 ++ ": " ++ kv.2)) ++
            (if input.BodyParams ≠ "" then ["--headers=Content-Type: application/json"]
             else [])) :=
  runner_command_eq input ev level risk threads timeBased hact

/-- C11 at a request with body parameters, form parameters and one header. -/
theorem processInputWithCancel_command_witness :
    (processInputWithCancel sampleCaseTable bodyRequest (SelectEvent.doneFired "") 3 2 10 true).command =
      some ["python3", "./sqlmap/sqlmap.py", "-u", "http://t/login",
            "--data", "\x7b\"pass\":\"test\",\"user\":\"1*\"\x7d",
            "--batch", "--stop", "--level=3", "--risk=2", "--threads=10",
            "--technique=BEUSTQ", "--method=POST",
            "--headers=X-Token: abc", "--headers=Content-Type: application/json"] :=
  (processInputWithCancel_command sampleCaseTable bodyRequest (SelectEvent.doneFired "") 3 2 10 true
    (by decide)).trans (by decide)

/-- C17 (code): when the cancellation fires while `cmd.Process` is still nil
(the tool not started yet, or its launch failed), the runner of an actionable
request faults at `cmd.Process.Kill()` and returns nothing, so the step has no
successor state; with a process handle it returns the cancelled outcome,
whether or not `Kill` reports an error. The fault occurs for every request
that is not skipped. -/
theorem cancel_with_nil_process_faults :
    (processInputWithCancel caseTable fuzzRequest (SelectEvent.cancelFired none false)
        1 1 1 false).result = none ∧
    (run caseTable State.init [Action.submit fuzzRequest 1 1 1 false "j1", Action.cancel "j1",
        Action.runnerReturn 0 (SelectEvent.cancelFired none false)]) = none ∧
    (∀ killFails,
      (processInputWithCancel caseTable fuzzRequest (SelectEvent.cancelFired (some 7) killFails)
          1 1 1 false).result =
        some { ID := "", URL := "http://t/p?q=FUZZ", Vulnerable := false, Payload := "",
               Status := "cancelled" }) ∧
    (∀ (input : ScanInput) (killFails : Bool) (level risk threads : Int) (timeBased : Bool),
      ¬ (input.BodyParams = "" ∧ input.FormParams = "" ∧
        Strings.Contains input.URL "FUZZ" = false) →
      (processInputWithCancel caseTable input (SelectEvent.cancelFired none killFails) level risk
        threads timeBased).result = none) := by
  refine ⟨runner_nil_process_fault fuzzRequest false 1 1 1 false (by decide), ?_, ?_,
    runner_nil_process_fault⟩
  · rw [run_table caseTable sampleCaseTable]
    decide
  · intro killFails
    rw [(processInputWithCancel_table caseTable sampleCaseTable fuzzRequest _ 1 1 1 false).1]
    cases killFails <;> decide

variable {caseTable}

/-! ## Lemmas on the marker substitution -/

theorem Strings.prefixOf_append (p t : List Char) : Strings.prefixOf p (p ++ t) = true := by
  induction p with
  | nil => simp [Strings.prefixOf]
  | cons a p ih => simp [Strings.prefixOf, ih]

/-- `containsL` holds exactly when the text splits around an occurrence. -/
theorem Strings.containsL_iff (sub s : List Char) :
    Strings.containsL sub s = true ↔ ∃ pre post, s = pre ++ sub ++ post := by
  induction s with
  | nil =>
    simp only [Strings.containsL]
    constructor
    · intro h
      exact ⟨[], [], by simpa using Strings.prefixOf_eq_append sub [] h⟩
    · rintro ⟨pre, post, h⟩
      have hsub : sub = [] := by
        have := congrArg List.length h
        simp only [List.length_nil, List.length_append] at this
        exact List.length_eq_zero.mp (by omega)
      subst hsub
      rfl
  | cons c cs ih =>
    simp only [Strings.containsL, Bool.or_eq_true]
    constructor
    · rintro (h | h)
      · exact ⟨[], (c :: cs).drop sub.length, by
          simpa using Strings.prefixOf_eq_append sub (c :: cs) h⟩
      · obtain ⟨pre, post, h2⟩ := ih.mp h
        exact ⟨c :: pre, post, by simp [h2]⟩
    · rintro ⟨pre, post, h⟩
      cases pre with
      | nil =>
        left
        rw [h]
        simpa using Strings.prefixOf_append sub post
      | cons x pre =>
        right
        simp only [List.cons_append, List.cons.injEq] at h
        exact ih.mpr ⟨pre, post, h.2⟩

/-- `replaceFirstL` rewrites the leftmost occurrence and nothing else. -/
theorem Strings.replaceFirstL_spec (old new s : List Char)
    (h : Strings.containsL old s = true) :
    ∃ pre post, s = pre ++ old ++ post ∧
      Strings.replaceFirstL old new s = pre ++ new ++ post ∧
      ∀ pre2 post2, s = pre2 ++ old ++ post2 → pre.length ≤ pre2.length := by
  induction s with
  | nil =>
    simp only [Strings.containsL] at h
    refine ⟨[], [], by simpa using Strings.prefixOf_eq_append old [] h, ?_, ?_⟩
    · simp [Strings.replaceFirstL, h]
    · intro pre2 post2 _
      exact Nat.zero_le _
  | cons c cs ih =>
    by_cases hp : Strings.prefixOf old (c :: cs) = true
    · refine ⟨[], (c :: cs).drop old.length, by
        simpa using Strings.prefixOf_eq_append old (c :: cs) hp, ?_, ?_⟩
      · simp [Strings.replaceFirstL, hp]
      · intro pre2 post2 _
        exact Nat.zero_le _
    · have h2 : Strings.containsL old cs = true := by
        simpa [Strings.containsL, hp] using h
      obtain ⟨pre, post, hs, hrep, hmin⟩ := ih h2
      refine ⟨c :: pre, post, by simp [hs], ?_, ?_⟩
      · simp only [Strings.replaceFirstL, hp, Bool.false_eq_true, if_false, hrep]
        simp
      · intro pre2 post2 h2
        cases pre2 with
        | nil =>
          exfalso
          apply hp
          rw [h2]
          simpa using Strings.prefixOf_append old post2
        | cons x pre2 =>
          simp only [List.cons_append, List.cons.injEq] at h2
          have := hmin pre2 post2 h2.2
          simp only [List.length_cons]
          omega


/-- The command of a request that is not skipped starts with `python3`, the
script path, `-u` and the URL after marker substitution. -/
theorem runner_command_head (input : ScanInput) (ev : SelectEvent)
    (level risk threads : Int) (timeBased : Bool)
    (hact : ¬ (input.BodyParams = "" ∧ input.FormParams = "" ∧
      Strings.Contains input.URL "FUZZ" = false)) :
    ∃ rest, (processInputWithCancel caseTable input ev level risk threads timeBased).command =
      some ("python3" :: sqlmapPath :: "-u" ::
        (if Strings.Contains input.URL "FUZZ" then Strings.Replace1 input.URL "FUZZ" "1*"
         else input.URL) :: rest) := by
  rw [runner_command_eq input ev level risk threads timeBased hact]
  exact ⟨_, rfl⟩

variable (caseTable)

/-! ## Theorems on the marker substitution -/

/-- C16 fails: for the URL `http://t/p?q=FUZZ` the argument after `-u` is
`http://t/p?q=1*`, the marker replaced by `"1*"` and not by `"test"`. -/
theorem fuzz_marker_replaced_by_star :
    (processInputWithCancel sampleCaseTable fuzzRequest (SelectEvent.doneFired "") 1 1 1 false).command =
      some ["python3", "./sqlmap/sqlmap.py", "-u", "http://t/p?q=1*", "--batch", "--stop",
            "--level=1", "--risk=1", "--threads=1", "--technique=BEUSQ", "--method=GET"] ∧
    Strings.Replace1 "http://t/p?q=FUZZ" "FUZZ" "1*" ≠ "http://t/p?q=test" := by
  decide

/-- C16 (amended): when the URL contains `"FUZZ"`, it splits as
`pre ++ "FUZZ" ++ post` at the leftmost occurrence and the argument after
`-u` is `pre ++ "1*" ++ post`; when it does not, the request is skipped or
the argument after `-u` is the URL itself. -/
theorem fuzz_marker_substitution (input : ScanInput) (ev : SelectEvent)
    (level risk threads : Int) (timeBased : Bool) :
    (Strings.Contains input.URL "FUZZ" = true →
      ∃ pre post rest, input.URL.data = pre ++ "FUZZ".data ++ post ∧
        (∀ pre2 post2, input.URL.data = pre2 ++ "FUZZ".data ++ post2 →
          pre.length ≤ pre2.length) ∧
        (processInputWithCancel caseTable input ev level risk threads timeBased).command =
          some ("python3" :: sqlmapPath :: "-u" :: String.mk (pre ++ "1*".data ++ post)
            :: rest)) ∧
    (Strings.Contains input.URL "FUZZ" = false →
      (processInputWithCancel caseTable input ev level risk threads timeBased).command = none ∨
      ∃ rest, (processInputWithCancel caseTable input ev level risk threads timeBased).command =
        some ("python3" :: sqlmapPath :: "-u" :: input.URL :: rest)) ∧
    (Strings.Contains input.URL "FUZZ" = true ↔
      ∃ pre post, input.URL.data = pre ++ "FUZZ".data ++ post) := by
  refine ⟨?_, ?_, Strings.containsL_iff _ _⟩
  · intro hu
    obtain ⟨pre, post, hs, hrep, hmin⟩ :=
      Strings.replaceFirstL_spec "FUZZ".data "1*".data input.URL.data hu
    have hact : ¬ (input.BodyParams = "" ∧ input.FormParams = "" ∧
        Strings.Contains input.URL "FUZZ" = false) := by
      rintro ⟨_, _, h⟩
      rw [hu] at h
      cases h
    obtain ⟨rest, hcmd⟩ := runner_command_head input ev level risk threads timeBased hact
    refine ⟨pre, post, rest, hs, hmin, ?_⟩
    rw [hcmd]
    simp only [hu, if_true, Strings.Replace1, hrep]
  · intro hu
    by_cases hact : (input.BodyParams = "" ∧ input.FormParams = "" ∧
        Strings.Contains input.URL "FUZZ" = false)
    · left
      obtain ⟨hb, hf, _⟩ := hact
      unfold processInputWithCancel
      simp [hb, hf, hu]
    · right
      obtain ⟨rest, hcmd⟩ := runner_command_head input ev level risk threads timeBased hact
      refine ⟨rest, ?_⟩
      rw [hcmd]
      simp only [hu, Bool.false_eq_true, if_false]

/-- C16 (amended) at the URL `a=FUZZ&b=FUZZ`: only the first marker is
replaced. -/
theorem fuzz_marker_substitution_witness :
    ∃ rest,
      (processInputWithCancel sampleCaseTable { fuzzRequest with URL := "a=FUZZ&b=FUZZ" }
        (SelectEvent.doneFired "") 1 1 1 false).command =
        some ("python3" :: sqlmapPath :: "-u" :: "a=1*&b=FUZZ" :: rest) := by
  obtain ⟨pre, post, rest, hs, hmin, hcmd⟩ :=
    (fuzz_marker_substitution sampleCaseTable { fuzzRequest with URL := "a=FUZZ&b=FUZZ" }
      (SelectEvent.doneFired "") 1 1 1 false).1 (by decide)
  refine ⟨rest, ?_⟩
  have hd : ({ fuzzRequest with URL := "a=FUZZ&b=FUZZ" } : ScanInput).URL.data =
      ['a', '=', 'F', 'U', 'Z', 'Z', '&', 'b', '=', 'F', 'U', 'Z', 'Z'] := by decide
  have hF : ("FUZZ" : String).data = ['F', 'U', 'Z', 'Z'] := rfl
  have hpre : pre.length ≤ 2 := hmin "a=".data "&b=FUZZ".data (by decide)
  rw [hd, hF] at hs
  rcases pre with _ | ⟨a, _ | ⟨b, _ | ⟨c, t⟩⟩⟩
  · simp at hs
  · simp at hs
  · simp only [List.cons_append, List.nil_append, List.cons.injEq] at hs
    obtain ⟨h1, h2, h3⟩ := hs
    subst h1
    subst h2
    have hp : ['&', 'b', '=', 'F', 'U', 'Z', 'Z'] = post := by
      simpa using h3
    subst hp
    rw [hcmd]
    rfl
  · simp at hpre

variable {caseTable}

/-! ## Lemmas on the registry invariants -/

/-- The record a worker stores under its id: the fields of its result, the id
as `ID`, and the status `"done"` or `"cancelled"`. -/
theorem workerStore_get (m : List (String × ScanResult)) (id : String) (res : ScanResult) :
    ∃ st, (st = "done" ∨ st = "cancelled") ∧
      Map.get (workerStore m id res) id =
        some { ID := id, URL := res.URL, Vulnerable := res.Vulnerable, Payload := res.Payload,
               Status := st } := by
  unfold workerStore
  by_cases h : res.Status = "cancelled"
  · refine ⟨"cancelled", Or.inr rfl, ?_⟩
    rw [Map.get_put_same]
    simp [h]
  · refine ⟨"done", Or.inl rfl, ?_⟩
    rw [Map.get_put_same]
    simp [h]

theorem cancelScan_signal (s : State) (id id2 : String) (ch : Nat)
    (h : Map.get (cancelScan s id).2.scanCancel id2 = some ch) :
    Map.get s.scanCancel id2 = some ch ∧ (id ≠ id2 ∨ Map.get s.scanCancel id = none) := by
  unfold cancelScan at h
  cases hc : Map.get s.scanCancel id with
  | none =>
    rw [hc] at h
    exact ⟨h, Or.inr rfl⟩
  | some c =>
    rw [hc] at h
    simp only at h
    by_cases hid : id = id2
    · subst hid
      rw [Map.get_del_same] at h
      cases h
    · rw [Map.get_del_ne _ _ _ hid] at h
      exact ⟨h, Or.inl hid⟩

theorem closeChan_mem (workers : List Worker) (ch : Nat) (x : Worker)
    (h : x ∈ closeChan workers ch) :
    ∃ w ∈ workers, x.id = w.id ∧ x.input = w.input ∧ x.phase = w.phase := by
  unfold closeChan at h
  cases hw : workers[ch]? with
  | none =>
    rw [hw] at h
    exact ⟨x, h, rfl, rfl, rfl⟩
  | some w =>
    rw [hw] at h
    rcases List.mem_or_eq_of_mem_set h with h1 | h1
    · exact ⟨x, h1, rfl, rfl, rfl⟩
    · subst h1
      exact ⟨w, List.getElem?_mem hw, rfl, rfl, rfl⟩

theorem cancelScan_workers_mem (s : State) (id : String) (x : Worker)
    (h : x ∈ (cancelScan s id).2.workers) :
    ∃ w ∈ s.workers, x.id = w.id ∧ x.input = w.input ∧ x.phase = w.phase := by
  unfold cancelScan at h
  cases hc : Map.get s.scanCancel id with
  | none =>
    rw [hc] at h
    exact ⟨x, h, rfl, rfl, rfl⟩
  | some c =>
    rw [hc] at h
    exact closeChan_mem s.workers c x h

theorem statusKnown_step (s s2 : State) (a : Action) (h : StatusKnown s)
    (hstep : step caseTable s a = some s2) : StatusKnown s2 := by
  intro id2 r hr
  rcases step_cases s s2 a hstep with
    ⟨input, level, risk, threads, timeBased, id, _, rfl⟩ | ⟨w, ev, wk, res, _, _, _, _, rfl⟩ |
    ⟨w, wk, res, _, _, _, rfl⟩ | ⟨id, _, rfl⟩
  · simp only [submitOne] at hr
    by_cases hid : id = id2
    · subst hid
      rw [Map.get_put_same] at hr
      cases hr
      exact Or.inl rfl
    · rw [Map.get_put_ne _ _ _ _ hid] at hr
      exact h id2 r hr
  · exact h id2 r hr
  · simp only at hr
    by_cases hid : wk.id = id2
    · subst hid
      obtain ⟨st, hst, hget⟩ := workerStore_get s.scanResults wk.id res
      rw [hget] at hr
      cases hr
      rcases hst with rfl | rfl
      · exact Or.inr (Or.inl rfl)
      · exact Or.inr (Or.inr rfl)
    · rw [workerStore_get_ne _ _ _ _ hid] at hr
      exact h id2 r hr
  · rcases cancelScan_get s id id2 with h1 | ⟨r0, _, h1⟩
    · rw [h1] at hr
      exact h id2 r hr
    · rw [h1] at hr
      cases hr
      exact Or.inr (Or.inr rfl)

theorem signalHasRecord_step (s s2 : State) (a : Action) (h : SignalHasRecord s)
    (hstep : step caseTable s a = some s2) : SignalHasRecord s2 := by
  intro id2 ch hch
  rcases step_cases s s2 a hstep with
    ⟨input, level, risk, threads, timeBased, id, _, rfl⟩ | ⟨w, ev, wk, res, _, _, _, _, rfl⟩ |
    ⟨w, wk, res, _, _, _, rfl⟩ | ⟨id, _, rfl⟩
  · simp only [submitOne] at hch ⊢
    by_cases hid : id = id2
    · subst hid
      exact ⟨_, Map.get_put_same _ _ _⟩
    · rw [Map.get_put_ne _ _ _ _ hid] at hch ⊢
      exact h id2 ch hch
  · exact h id2 ch hch
  · simp only at hch ⊢
    by_cases hid : wk.id = id2
    · subst hid
      obtain ⟨st, _, hget⟩ := workerStore_get s.scanResults wk.id res
      exact ⟨_, hget⟩
    · rw [workerStore_get_ne _ _ _ _ hid]
      exact h id2 ch hch
  · obtain ⟨hold, _⟩ := cancelScan_signal s id id2 ch hch
    obtain ⟨r, hr⟩ := h id2 ch hold
    rcases cancelScan_get s id id2 with h1 | ⟨r0, _, h1⟩
    · exact ⟨r, by rw [h1, hr]⟩
    · exact ⟨_, h1⟩

theorem keyIsId_step (s s2 : State) (a : Action) (h : KeyIsId s)
    (hstep : step caseTable s a = some s2) : KeyIsId s2 := by
  intro id2 r hr
  rcases step_cases s s2 a hstep with
    ⟨input, level, risk, threads, timeBased, id, _, rfl⟩ | ⟨w, ev, wk, res, _, _, _, _, rfl⟩ |
    ⟨w, wk, res, _, _, _, rfl⟩ | ⟨id, _, rfl⟩
  · simp only [submitOne] at hr
    by_cases hid : id = id2
    · subst hid
      rw [Map.get_put_same] at hr
      cases hr
      rfl
    · rw [Map.get_put_ne _ _ _ _ hid] at hr
      exact h id2 r hr
  · exact h id2 r hr
  · simp only at hr
    by_cases hid : wk.id = id2
    · subst hid
      obtain ⟨st, _, hget⟩ := workerStore_get s.scanResults wk.id res
      rw [hget] at hr
      cases hr
      rfl
    · rw [workerStore_get_ne _ _ _ _ hid] at hr
      exact h id2 r hr
  · rcases cancelScan_get s id id2 with h1 | ⟨r0, hr0, h1⟩
    · rw [h1] at hr
      exact h id2 r hr
    · rw [h1] at hr
      cases hr
      exact h id2 r0 hr0

theorem vulnIffPayload_step (s s2 : State) (a : Action) (h : VulnIffPayload s)
    (hstep : step caseTable s a = some s2) : VulnIffPayload s2 := by
  obtain ⟨hrec, hwork⟩ := h
  rcases step_cases s s2 a hstep with
    ⟨input, level, risk, threads, timeBased, id, _, rfl⟩ | ⟨w, ev, wk, res, _, hwk, _, hres, rfl⟩ |
    ⟨w, wk, res, _, hwk, hph, rfl⟩ | ⟨id, _, rfl⟩
  · constructor
    · intro id2 r hr
      simp only [submitOne] at hr
      by_cases hid : id = id2
      · subst hid
        rw [Map.get_put_same] at hr
        cases hr
        simp
      · rw [Map.get_put_ne _ _ _ _ hid] at hr
        exact hrec id2 r hr
    · intro x hx res hph
      simp only [submitOne, List.mem_append, List.mem_singleton] at hx
      rcases hx with hx | hx
      · exact hwork x hx res hph
      · subst hx
        cases hph
  · constructor
    · exact hrec
    · intro x hx res2 hph
      rcases List.mem_or_eq_of_mem_set hx with hx | hx
      · exact hwork x hx res2 hph
      · subst hx
        simp only [Phase.returned.injEq] at hph
        subst hph
        exact (processInputWithCancel_result _ _ _ _ _ _ _ hres).2.1
  · constructor
    · intro id2 r hr
      simp only at hr
      by_cases hid : wk.id = id2
      · subst hid
        obtain ⟨st, _, hget⟩ := workerStore_get s.scanResults wk.id res
        rw [hget] at hr
        cases hr
        exact hwork wk (List.getElem?_mem hwk) res hph
      · rw [workerStore_get_ne _ _ _ _ hid] at hr
        exact hrec id2 r hr
    · intro x hx res2 hph2
      rcases List.mem_or_eq_of_mem_set hx with hx | hx
      · exact hwork x hx res2 hph2
      · subst hx
        cases hph2
  · constructor
    · intro id2 r hr
      rcases cancelScan_get s id id2 with h1 | ⟨r0, hr0, h1⟩
      · rw [h1] at hr
        exact hrec id2 r hr
      · rw [h1] at hr
        cases hr
        exact hrec id2 r0 hr0
    · intro x hx res hph
      obtain ⟨w, hw, _, _, hp⟩ := cancelScan_workers_mem s id x hx
      exact hwork w hw res (hp ▸ hph)

theorem init_invariants :
    StatusKnown State.init ∧ SignalHasRecord State.init ∧ KeyIsId State.init ∧
    VulnIffPayload State.init ∧ UrlKept State.init := by
  refine ⟨?_, ?_, ?_, ⟨?_, ?_⟩, ?_⟩
  · intro id r hr
    simp [State.init, Map.get] at hr
  · intro id ch hch
    simp [State.init, Map.get] at hch
  · intro id r hr
    simp [State.init, Map.get] at hr
  · intro id r hr
    simp [State.init, Map.get] at hr
  · intro w hw
    simp [State.init] at hw
  · intro w hw
    simp [State.init] at hw


variable (caseTable)

/-! ## Theorems on the registry -/

/-- C12: in every reachable state and for every id present in it,
`handleResult` answers with the status alone when the stored status is
`"running"`, and with the full record when the stored status is terminal
(`"done"`, `"cancelled"` or `"skipped"`); every stored status is `"running"`
or terminal. -/
theorem handleResult_by_status (s : State) (id : String) (r : ScanResult)
    (hs : Reachable caseTable s) (hr : Map.get s.scanResults id = some r) :
    (r.Status = "running" → handleResult s id = Response.status 200 r.Status) ∧
    (isTerminal r.Status → handleResult s id = Response.record 200 r) ∧
    (r.Status = "running" ∨ isTerminal r.Status) := by
  obtain ⟨acts, hacts⟩ := hs
  have hknown := run_invariant StatusKnown (fun s a s2 => statusKnown_step s s2 a) acts
    State.init s init_invariants.1 hacts id r hr
  have hfull : r.Status = "done" ∨ r.Status = "cancelled" →
      handleResult s id = Response.record 200 r := by
    intro hterm
    unfold handleResult
    rw [hr]
    rcases hterm with h | h
    · simp [h]
    · simp [h]
  refine ⟨?_, ?_, ?_⟩
  · intro hrun
    unfold handleResult
    rw [hr]
    have h1 : r.Status ≠ "done" := by rw [hrun]; decide
    have h2 : r.Status ≠ "cancelled" := by rw [hrun]; decide
    simp [h1, h2]
  · intro hterm
    rcases hterm with h | h | h
    · exact hfull (Or.inl h)
    · exact hfull (Or.inr h)
    · exfalso
      rcases hknown with k | k | k
      · rw [h] at k
        exact absurd k (by decide)
      · rw [h] at k
        exact absurd k (by decide)
      · rw [h] at k
        exact absurd k (by decide)
  · rcases hknown with k | k | k
    · exact Or.inl k
    · exact Or.inr (Or.inl k)
    · exact Or.inr (Or.inr (Or.inl k))

/-- C12 at the state after a completed job: the stored status is `"done"` and
the full record is returned. -/
theorem handleResult_by_status_witness :
    handleResult completedState "j1" =
      Response.record 200 { ID := "j1", URL := "http://t/p?q=FUZZ", Vulnerable := true,
                            Payload := "q=1 AND 1=1", Status := "done" } :=
  (handleResult_by_status sampleCaseTable completedState "j1"
    { ID := "j1", URL := "http://t/p?q=FUZZ", Vulnerable := true, Payload := "q=1 AND 1=1",
      Status := "done" } ⟨completedTrace, by decide⟩ (by decide)).2.1 (Or.inl rfl)

/-- C18: in every reachable state, every stored record has `Vulnerable = true`
exactly when its `Payload` is non-empty. -/
theorem vulnerable_iff_payload (s : State) (hs : Reachable caseTable s) (id : String) (r : ScanResult)
    (hr : Map.get s.scanResults id = some r) : r.Vulnerable = true ↔ r.Payload ≠ "" := by
  obtain ⟨acts, hacts⟩ := hs
  exact (run_invariant VulnIffPayload (fun s a s2 => vulnIffPayload_step s s2 a) acts State.init s
    init_invariants.2.2.2.1 hacts).1 id r hr

/-- C18 at the state after a completed job that found a payload. -/
theorem vulnerable_iff_payload_witness :
    Map.get completedState.scanResults "j1" =
        some { ID := "j1", URL := "http://t/p?q=FUZZ", Vulnerable := true,
               Payload := "q=1 AND 1=1", Status := "done" } ∧
      ((true : Bool) = true ↔ ("q=1 AND 1=1" : String) ≠ "") :=
  ⟨by decide,
    vulnerable_iff_payload sampleCaseTable completedState ⟨completedTrace, by decide⟩ "j1"
      { ID := "j1", URL := "http://t/p?q=FUZZ", Vulnerable := true, Payload := "q=1 AND 1=1",
        Status := "done" } (by decide)⟩

variable {caseTable}

/-! ## Lemmas on unknown ids and on runs with unique ids -/

theorem untouched_step (id : String) (s s2 : State) (a : Action) (h : Untouched id s)
    (hne : a.submitId ≠ some id) (hstep : step caseTable s a = some s2) : Untouched id s2 := by
  obtain ⟨hrec, hsig, hwork⟩ := h
  rcases step_cases s s2 a hstep with
    ⟨input, level, risk, threads, timeBased, id1, rfl, rfl⟩ |
    ⟨w, ev, wk, res, _, hwk, _, _, rfl⟩ |
    ⟨w, wk, res, _, hwk, _, rfl⟩ | ⟨id1, _, rfl⟩
  · have hid : id1 ≠ id := by
      intro h
      apply hne
      simp [Action.submitId, h]
    refine ⟨?_, ?_, ?_⟩
    · simp only [submitOne]
      rw [Map.get_put_ne _ _ _ _ hid]
      exact hrec
    · simp only [submitOne]
      rw [Map.get_put_ne _ _ _ _ hid]
      exact hsig
    · intro x hx
      simp only [submitOne, List.mem_append, List.mem_singleton] at hx
      rcases hx with hx | hx
      · exact hwork x hx
      · subst hx
        exact hid
  · refine ⟨hrec, hsig, ?_⟩
    intro x hx
    rcases List.mem_or_eq_of_mem_set hx with hx | hx
    · exact hwork x hx
    · subst hx
      exact hwork wk (List.getElem?_mem hwk)
  · have hid : wk.id ≠ id := hwork wk (List.getElem?_mem hwk)
    refine ⟨?_, hsig, ?_⟩
    · simp only
      rw [workerStore_get_ne _ _ _ _ hid]
      exact hrec
    · intro x hx
      rcases List.mem_or_eq_of_mem_set hx with hx | hx
      · exact hwork x hx
      · subst hx
        exact hid
  · refine ⟨?_, ?_, ?_⟩
    · rcases cancelScan_get s id1 id with h1 | ⟨r0, hr0, _⟩
      · rw [h1]
        exact hrec
      · rw [hrec] at hr0
        cases hr0
    · cases hc : Map.get (cancelScan s id1).2.scanCancel id with
      | none => rfl
      | some ch =>
        have := (cancelScan_signal s id1 id ch hc).1
        rw [hsig] at this
        cases this
    · intro x hx
      obtain ⟨w, hw, hxid, _, _⟩ := cancelScan_workers_mem s id1 x hx
      rw [hxid]
      exact hwork w hw

theorem untouched_run (id : String) (acts : List Action) (s s2 : State) (h : Untouched id s)
    (hne : ∀ a ∈ acts, a.submitId ≠ some id) (hrun : run caseTable s acts = some s2) :
    Untouched id s2 := by
  induction acts generalizing s with
  | nil =>
    simp only [run, Option.some.injEq] at hrun
    subst hrun
    exact h
  | cons a as ih =>
    simp only [run] at hrun
    cases hst : step caseTable s a with
    | none => rw [hst] at hrun; cases hrun
    | some s1 =>
      rw [hst] at hrun
      exact ih s1 (untouched_step id s s1 a h (hne a (List.mem_cons_self _ _)) hst)
        (fun b hb => hne b (List.mem_cons_of_mem _ hb)) hrun

/-- An invariant kept by every step of a run with unique ids holds after it. -/
theorem runUnique_invariant (P : State → Prop)
    (hstep : ∀ s a s2, P s → freshStep s a = true → step caseTable s a = some s2 → P s2) :
    ∀ (acts : List Action) (s s2 : State), P s → runUnique caseTable s acts = some s2 → P s2 := by
  intro acts
  induction acts with
  | nil =>
    intro s s2 hP hrun
    simp only [runUnique, Option.some.injEq] at hrun
    subst hrun
    exact hP
  | cons a as ih =>
    intro s s2 hP hrun
    simp only [runUnique] at hrun
    split at hrun
    · rename_i hf
      cases hst : step caseTable s a with
      | none => rw [hst] at hrun; cases hrun
      | some s1 =>
        rw [hst] at hrun
        exact ih s1 s2 (hstep s a s1 hP hf hst) hrun
    · cases hrun

theorem runUnique_append (acts1 acts2 : List Action) (s s2 : State)
    (h : runUnique caseTable s (acts1 ++ acts2) = some s2) :
    ∃ s1, runUnique caseTable s acts1 = some s1 ∧ runUnique caseTable s1 acts2 = some s2 := by
  induction acts1 generalizing s with
  | nil => exact ⟨s, rfl, h⟩
  | cons a as ih =>
    simp only [List.cons_append, runUnique] at h ⊢
    split at h
    · rename_i hf
      cases hst : step caseTable s a with
      | none => rw [hst] at h; cases h
      | some s1 =>
        rw [hst] at h
        simp only [hf, if_true]
        exact ih s1 h
    · cases h

/-- A stored status other than `"running"` stays so along a step that does not
submit under an id already in the registry. -/
theorem notRunning_step (id : String) (s s2 : State) (a : Action)
    (h : ∃ r, Map.get s.scanResults id = some r ∧ isTerminal r.Status)
    (hf : freshStep s a = true) (hstep : step caseTable s a = some s2) :
    ∃ r, Map.get s2.scanResults id = some r ∧ isTerminal r.Status := by
  obtain ⟨r, hr, hterm⟩ := h
  rcases step_cases s s2 a hstep with
    ⟨input, level, risk, threads, timeBased, id1, rfl, rfl⟩ |
    ⟨w, ev, wk, res, _, _, _, _, rfl⟩ |
    ⟨w, wk, res, _, _, _, rfl⟩ | ⟨id1, _, rfl⟩
  · have hid : id1 ≠ id := by
      intro h
      subst h
      simp [freshStep, hr] at hf
    refine ⟨r, ?_, hterm⟩
    simp only [submitOne]
    rw [Map.get_put_ne _ _ _ _ hid]
    exact hr
  · exact ⟨r, hr, hterm⟩
  · by_cases hid : wk.id = id
    · subst hid
      obtain ⟨st, hst, hget⟩ := workerStore_get s.scanResults wk.id res
      refine ⟨_, hget, ?_⟩
      rcases hst with rfl | rfl
      · exact Or.inl rfl
      · exact Or.inr (Or.inl rfl)
    · refine ⟨r, ?_, hterm⟩
      simp only
      rw [workerStore_get_ne _ _ _ _ hid]
      exact hr
  · rcases cancelScan_get s id1 id with h1 | ⟨r0, _, h1⟩
    · exact ⟨r, by rw [h1, hr], hterm⟩
    · exact ⟨_, h1, Or.inr (Or.inl rfl)⟩

theorem urlKept_step (s s2 : State) (a : Action) (h : UrlKept s)
    (hf : freshStep s a = true) (hstep : step caseTable s a = some s2) : UrlKept s2 := by
  rcases step_cases s s2 a hstep with
    ⟨input, level, risk, threads, timeBased, id1, rfl, rfl⟩ |
    ⟨w, ev, wk, res, _, hwk, _, hres, rfl⟩ |
    ⟨w, wk, res, _, hwk, hph, rfl⟩ | ⟨id1, _, rfl⟩
  · have hnone : Map.get s.scanResults id1 = none := by
      simpa [freshStep] using hf
    intro x hx
    simp only [submitOne, List.mem_append, List.mem_singleton] at hx ⊢
    rcases hx with hx | hx
    · obtain ⟨⟨r, hr, hurl⟩, hph⟩ := h x hx
      have hid : id1 ≠ x.id := by
        intro h
        rw [h, hr] at hnone
        cases hnone
      exact ⟨⟨r, by rw [Map.get_put_ne _ _ _ _ hid]; exact hr, hurl⟩, hph⟩
    · subst hx
      refine ⟨⟨_, Map.get_put_same _ _ _, rfl⟩, ?_⟩
      intro res hph
      cases hph
  · intro x hx
    rcases List.mem_or_eq_of_mem_set hx with hx | hx
    · exact h x hx
    · subst hx
      refine ⟨(h wk (List.getElem?_mem hwk)).1, ?_⟩
      intro res2 hph
      simp only [Phase.returned.injEq] at hph
      subst hph
      exact (processInputWithCancel_result _ _ _ _ _ _ _ hres).1
  · have hwkmem := List.getElem?_mem hwk
    obtain ⟨⟨rw0, hrw0, hurlw⟩, hphw⟩ := h wk hwkmem
    have hresurl : res.URL = wk.input.URL := hphw res hph
    obtain ⟨st, _, hget⟩ := workerStore_get s.scanResults wk.id res
    have hrec : ∀ x ∈ s.workers,
        ∃ r, Map.get (workerStore s.scanResults wk.id res) x.id = some r ∧
          r.URL = x.input.URL := by
      intro x hx
      obtain ⟨⟨r, hr, hurl⟩, _⟩ := h x hx
      by_cases hid : wk.id = x.id
      · have hget2 : Map.get (workerStore s.scanResults wk.id res) x.id =
            some { ID := wk.id, URL := res.URL, Vulnerable := res.Vulnerable,
                   Payload := res.Payload, Status := st } := by
          rw [← hid]
          exact hget
        refine ⟨_, hget2, ?_⟩
        rw [← hid, hrw0] at hr
        cases hr
        show res.URL = x.input.URL
        rw [hresurl, ← hurlw, hurl]
      · exact ⟨r, by rw [workerStore_get_ne _ _ _ _ hid]; exact hr, hurl⟩
    intro x hx
    rcases List.mem_or_eq_of_mem_set hx with hx | hx
    · exact ⟨hrec x hx, (h x hx).2⟩
    · subst hx
      refine ⟨hrec wk hwkmem, ?_⟩
      intro res2 hph2
      cases hph2
  · intro x hx
    obtain ⟨w, hw, hxid, hxin, hxph⟩ := cancelScan_workers_mem s id1 x hx
    obtain ⟨⟨r, hr, hurl⟩, hph⟩ := h w hw
    rw [hxid, hxin, hxph]
    refine ⟨?_, hph⟩
    rcases cancelScan_get s id1 w.id with h1 | ⟨r0, hr0, h1⟩
    · exact ⟨r, by rw [h1, hr], hurl⟩
    · rw [hr] at hr0
      cases hr0
      exact ⟨_, h1, hurl⟩

/-- Along a step of a run with unique ids, the record under `id` keeps its
URL. -/
theorem urlOf_step (id url : String) (s s2 : State) (a : Action)
    (h : UrlKept s ∧ ∃ r, Map.get s.scanResults id = some r ∧ r.URL = url)
    (hf : freshStep s a = true) (hstep : step caseTable s a = some s2) :
    UrlKept s2 ∧ ∃ r, Map.get s2.scanResults id = some r ∧ r.URL = url := by
  obtain ⟨hk, r, hr, hurl⟩ := h
  refine ⟨urlKept_step s s2 a hk hf hstep, ?_⟩
  rcases step_cases s s2 a hstep with
    ⟨input, level, risk, threads, timeBased, id1, rfl, rfl⟩ |
    ⟨w, ev, wk, res, _, _, _, _, rfl⟩ |
    ⟨w, wk, res, _, hwk, hph, rfl⟩ | ⟨id1, _, rfl⟩
  · have hid : id1 ≠ id := by
      intro h
      subst h
      simp [freshStep, hr] at hf
    refine ⟨r, ?_, hurl⟩
    simp only [submitOne]
    rw [Map.get_put_ne _ _ _ _ hid]
    exact hr
  · exact ⟨r, hr, hurl⟩
  · by_cases hid : wk.id = id
    · subst hid
      obtain ⟨⟨r1, hr1, hurl1⟩, hphw⟩ := hk wk (List.getElem?_mem hwk)
      obtain ⟨st, _, hget⟩ := workerStore_get s.scanResults wk.id res
      refine ⟨_, hget, ?_⟩
      rw [hr] at hr1
      cases hr1
      show res.URL = url
      rw [hphw res hph, ← hurl1, hurl]
    · refine ⟨r, ?_, hurl⟩
      simp only
      rw [workerStore_get_ne _ _ _ _ hid]
      exact hr
  · rcases cancelScan_get s id1 id with h1 | ⟨r0, hr0, h1⟩
    · exact ⟨r, by rw [h1, hr], hurl⟩
    · rw [hr] at hr0
      cases hr0
      exact ⟨_, h1, hurl⟩

variable (caseTable)

/-! ## Theorems on unknown ids and on the lifecycle -/

/-- C13: after any run in which no job was created under `id`, `handleStatus`,
`handleResult` and `cancelScan` answer not-found for `id` and `cancelScan`
leaves the state unchanged; and every id with an entry in `scanCancel` has a
record in `scanResults`. -/
theorem unknown_id_not_found (acts : List Action) (s : State) (id : String)
    (hrun : run caseTable State.init acts = some s)
    (hnever : ∀ a ∈ acts, a.submitId ≠ some id) :
    handleStatus s id = Response.error 404 "Scan ID not found" ∧
    handleResult s id = Response.error 404 "Scan ID not found" ∧
    cancelScan s id = (Response.error 404 "Scan ID not found or already finished", s) ∧
    (∀ id2 ch, Map.get s.scanCancel id2 = some ch →
      ∃ r, Map.get s.scanResults id2 = some r) := by
  have hinit : Untouched id State.init := by
    refine ⟨rfl, rfl, ?_⟩
    intro w hw
    simp [State.init] at hw
  obtain ⟨hrec, hsig, _⟩ := untouched_run id acts State.init s hinit hnever hrun
  refine ⟨?_, ?_, ?_, ?_⟩
  · unfold handleStatus
    rw [hrec]
  · unfold handleResult
    rw [hrec]
  · unfold cancelScan
    rw [hsig]
  · exact run_invariant SignalHasRecord (fun s a s2 => signalHasRecord_step s s2 a) acts
      State.init s init_invariants.2.1 hrun

/-- C13 at the state after a completed job `"j1"`, for the id `"zz"`. -/
theorem unknown_id_not_found_witness :
    handleStatus completedState "zz" = Response.error 404 "Scan ID not found" ∧
    handleResult completedState "zz" = Response.error 404 "Scan ID not found" ∧
    cancelScan completedState "zz" =
      (Response.error 404 "Scan ID not found or already finished", completedState) ∧
    (∀ id2 ch, Map.get completedState.scanCancel id2 = some ch →
      ∃ r, Map.get completedState.scanResults id2 = some r) :=
  unknown_id_not_found sampleCaseTable completedTrace completedState "zz" (by decide) (by decide)

/-- C14: once the status stored for a job is terminal, it is terminal, and so
not `"running"`, after every further run in which the id generator never
returns an id again; and no step other than a submit stores `"running"`: a
record with that status after the step was the same record before it. -/
theorem terminal_never_running_again (s s2 : State) (acts : List Action) (id : String)
    (r : ScanResult) (hr : Map.get s.scanResults id = some r) (hterm : isTerminal r.Status)
    (hrun : runUnique caseTable s acts = some s2) :
    (∃ r2, Map.get s2.scanResults id = some r2 ∧ isTerminal r2.Status ∧
      r2.Status ≠ "running") ∧
    (∀ (t t2 : State) (a : Action), a.submitId = none → step caseTable t a = some t2 →
      ∀ id2 r2, Map.get t2.scanResults id2 = some r2 → r2.Status = "running" →
        Map.get t.scanResults id2 = some r2) := by
  constructor
  · obtain ⟨r2, hr2, ht2⟩ := runUnique_invariant
      (fun t => ∃ r, Map.get t.scanResults id = some r ∧ isTerminal r.Status)
      (fun t a t2 hP hf hst => notRunning_step id t t2 a hP hf hst) acts s s2
      ⟨r, hr, hterm⟩ hrun
    refine ⟨r2, hr2, ht2, ?_⟩
    rcases ht2 with h | h | h <;> rw [h] <;> decide
  · intro t t2 a hsub hstep id2 r2 hr2 hrunning
    rcases step_cases t t2 a hstep with
      ⟨input, level, risk, threads, timeBased, id1, rfl, _⟩ |
      ⟨w, ev, wk, res, _, _, _, _, rfl⟩ |
      ⟨w, wk, res, _, _, _, rfl⟩ | ⟨id1, _, rfl⟩
    · simp [Action.submitId] at hsub
    · exact hr2
    · by_cases hid : wk.id = id2
      · subst hid
        obtain ⟨st, hst, hget⟩ := workerStore_get t.scanResults wk.id res
        simp only at hr2
        rw [hget] at hr2
        cases hr2
        exfalso
        rcases hst with h | h
        · rw [h] at hrunning
          have h3 : ("done" : String) = "running" := hrunning
          exact absurd h3 (by decide)
        · rw [h] at hrunning
          have h3 : ("cancelled" : String) = "running" := hrunning
          exact absurd h3 (by decide)
      · simp only at hr2
        rw [workerStore_get_ne _ _ _ _ hid] at hr2
        exact hr2
    · rcases cancelScan_get t id1 id2 with h1 | ⟨r0, _, h1⟩
      · rw [h1] at hr2
        exact hr2
      · rw [h1] at hr2
        cases hr2
        have h3 : ("cancelled" : String) = "running" := hrunning
        exact absurd h3 (by decide)

/-- C14 at the state after a completed job, followed by a cancel. -/
theorem terminal_never_running_again_witness :
    ∃ r2, Map.get (cancelScan completedState "j1").2.scanResults "j1" = some r2 ∧
      isTerminal r2.Status ∧ r2.Status ≠ "running" :=
  (terminal_never_running_again sampleCaseTable completedState (cancelScan completedState "j1").2
    [Action.cancel "j1"] "j1"
    { ID := "j1", URL := "http://t/p?q=FUZZ", Vulnerable := true, Payload := "q=1 AND 1=1",
      Status := "done" } (by decide) (Or.inl rfl) rfl).1

/-- C15: in every state of a run in which the id generator never returns an
id again, the record stored under the id of a submitted job has that id as
its `ID` and the URL of the request that created it; and every stored record
has its key as its `ID`. -/
theorem id_and_url_kept (acts1 acts2 : List Action) (input : ScanInput)
    (level risk threads : Int) (timeBased : Bool) (id : String) (s : State)
    (hrun : runUnique caseTable State.init
      (acts1 ++ Action.submit input level risk threads timeBased id :: acts2) = some s) :
    (∃ r, Map.get s.scanResults id = some r ∧ r.ID = id ∧ r.URL = input.URL) ∧
    (∀ id2 r2, Map.get s.scanResults id2 = some r2 → r2.ID = id2) := by
  have hkey : KeyIsId s :=
    run_invariant KeyIsId (fun s a s2 => keyIsId_step s s2 a) _ State.init s
      init_invariants.2.2.1 (runUnique_run _ _ _ hrun)
  obtain ⟨s1, h1, h2⟩ := runUnique_append acts1 _ State.init s hrun
  have hk1 : UrlKept s1 :=
    runUnique_invariant UrlKept (fun t a t2 hP hf hst => urlKept_step t t2 a hP hf hst)
      acts1 State.init s1 init_invariants.2.2.2.2 h1
  simp only [runUnique] at h2
  split at h2
  · rename_i hf
    simp only [step] at h2
    have hk2 := urlKept_step s1 _ _ hk1 hf
      (show step caseTable s1 (Action.submit input level risk threads timeBased id) = some _ from rfl)
    obtain ⟨_, r, hr, hurl⟩ := runUnique_invariant
      (fun t => UrlKept t ∧ ∃ r, Map.get t.scanResults id = some r ∧ r.URL = input.URL)
      (fun t a t2 hP hf hst => urlOf_step id input.URL t t2 a hP hf hst) acts2 _ s
      ⟨hk2, _, Map.get_put_same _ _ _, rfl⟩ h2
    exact ⟨⟨r, hr, hkey id r hr, hurl⟩, hkey⟩
  · cases h2

/-- C15 at the run in which job `"j1"` is submitted, completed and then
cancelled. -/
theorem id_and_url_kept_witness :
    (∃ r, Map.get (cancelScan completedState "j1").2.scanResults "j1" = some r ∧
      r.ID = "j1" ∧ r.URL = fuzzRequest.URL) ∧
    (∀ id2 r2, Map.get (cancelScan completedState "j1").2.scanResults id2 = some r2 →
      r2.ID = id2) :=
  id_and_url_kept sampleCaseTable [] [Action.runnerReturn 0 (SelectEvent.doneFired vulnOutput),
      Action.workerWrite 0, Action.cancel "j1"] fuzzRequest 1 1 1 false "j1"
    (cancelScan completedState "j1").2 (by decide)

variable {caseTable}

/-! ## Lemmas on the batch dispatcher -/

theorem snapshots_none (c : BatchCall) (h : c.pending = none) : c.snapshots = c.results := by
  simp [BatchCall.snapshots, h]

theorem snapshots_some (c : BatchCall) (p : ScanResult × Bool) (h : c.pending = some p) :
    c.snapshots = c.results ++ [p.1] := by
  simp [BatchCall.snapshots, h]

/-- What a successful step of the program and the call is, case by case. -/
theorem handleSQLiScanStep_cases (uuidNew : Nat → String) (sc sc2 : State × BatchCall)
    (act : CallAction) (h : handleSQLiScanStep caseTable uuidNew sc act = some sc2) :
    (∃ input rest, act = CallAction.lockSection ∧ sc.2.pending = none ∧
      sc.2.todo = input :: rest ∧
      sc2 = ((submitOne sc.1 input sc.2.batchInput.Level sc.2.batchInput.Risk
                sc.2.batchInput.Threads sc.2.batchInput.TimeBased (uuidNew sc.2.drawn)).2,
             { sc.2 with
               todo := rest, drawn := sc.2.drawn + 1,
               pending := some ({ ID := uuidNew sc.2.drawn, URL := input.URL,
                                  Vulnerable := false, Payload := "", Status := "running" },
                                true) })) ∨
    (∃ p, act = CallAction.copy ∧ sc.2.pending = some p ∧
      sc2 = (sc.1, { sc.2 with results := sc.2.results ++ [p.1], pending := none })) ∨
    (∃ a s2, act = CallAction.other a ∧ step caseTable sc.1 a = some s2 ∧
      sc2 = (s2, { sc.2 with pending := sc.2.pending.map (touchPending sc.1 a) })) := by
  cases act with
  | lockSection =>
    simp only [handleSQLiScanStep] at h
    split at h
    · rename_i input rest hp ht
      simp only [Option.some.injEq] at h
      exact Or.inl ⟨input, rest, rfl, hp, ht, h.symm⟩
    · cases h
  | copy =>
    simp only [handleSQLiScanStep] at h
    split at h
    · rename_i p hp
      simp only [Option.some.injEq] at h
      exact Or.inr (Or.inl ⟨p, rfl, hp, h.symm⟩)
    · cases h
  | other a =>
    simp only [handleSQLiScanStep] at h
    split at h
    · rename_i s2 hs
      simp only [Option.some.injEq] at h
      exact Or.inr (Or.inr ⟨a, s2, rfl, hs, h.symm⟩)
    · cases h

/-- A step of the rest of the program leaves the struct awaiting its copy as
it is, or it is a cancel of its id and sets its status. -/
theorem touchPending_spec (s : State) (a : Action) (p : ScanResult × Bool) :
    (touchPending s a p).1 = p.1 ∨
    (a = Action.cancel p.1.ID ∧
      (touchPending s a p).1 = { p.1 with Status := "cancelled" }) := by
  cases a with
  | submit input level risk threads timeBased id =>
    simp only [touchPending]
    split <;> exact Or.inl rfl
  | runnerReturn w ev => exact Or.inl rfl
  | workerWrite w =>
    simp only [touchPending]
    split
    · split <;> exact Or.inl rfl
    · exact Or.inl rfl
  | cancel id =>
    simp only [touchPending]
    split
    · rename_i hc
      exact Or.inr ⟨by rw [hc.2.1], rfl⟩
    · exact Or.inl rfl

theorem touchPending_core (s : State) (a : Action) (p : ScanResult × Bool) :
    snapshotCore (touchPending s a p).1 = snapshotCore p.1 := by
  rcases touchPending_spec s a p with h | ⟨_, h⟩
  · rw [h]
  · rw [h]
    rfl

/-- After a step of the rest of the program the snapshots of the call have the
fields other than the status they had, and each is as it was unless the step
is a cancel of its id. -/
theorem snapshots_touch (c : BatchCall) (s : State) (a : Action) :
    (BatchCall.snapshots { c with pending := c.pending.map (touchPending s a) }).map
        snapshotCore = c.snapshots.map snapshotCore ∧
    ∀ r ∈ BatchCall.snapshots { c with pending := c.pending.map (touchPending s a) },
      r ∈ c.snapshots ∨ ∃ r0 ∈ c.snapshots, a = Action.cancel r0.ID ∧ r.ID = r0.ID := by
  cases hp : c.pending with
  | none =>
    have h1 : BatchCall.snapshots { c with pending := (none : Option _).map (touchPending s a) }
        = c.snapshots := by
      rw [snapshots_none _ rfl, snapshots_none c hp]
    rw [h1]
    exact ⟨rfl, fun r hr => Or.inl hr⟩
  | some p =>
    have h1 : BatchCall.snapshots { c with pending := (some p).map (touchPending s a) }
        = c.results ++ [(touchPending s a p).1] := snapshots_some _ _ rfl
    have h0 := snapshots_some c p hp
    rw [h1, h0]
    constructor
    · rw [List.map_append, List.map_append, List.map_singleton, List.map_singleton,
        touchPending_core]
    · intro r hr
      simp only [List.mem_append, List.mem_singleton] at hr ⊢
      rcases hr with hr | hr
      · exact Or.inl (Or.inl hr)
      · rcases touchPending_spec s a p with h2 | ⟨h2, h3⟩
        · exact Or.inl (Or.inr (hr.trans h2))
        · refine Or.inr ⟨p.1, Or.inr rfl, h2, ?_⟩
          rw [hr, h3]

/-- No step removes a record. -/
theorem step_record_persists (s s2 : State) (a : Action) (id : String)
    (hstep : step caseTable s a = some s2) (h : ∃ r, Map.get s.scanResults id = some r) :
    ∃ r, Map.get s2.scanResults id = some r := by
  obtain ⟨r, hr⟩ := h
  rcases step_cases s s2 a hstep with
    ⟨input, level, risk, threads, timeBased, id1, _, rfl⟩ | ⟨w, ev, wk, res, _, _, _, _, rfl⟩ |
    ⟨w, wk, res, _, _, _, rfl⟩ | ⟨id1, _, rfl⟩
  · simp only [submitOne]
    by_cases hid : id1 = id
    · subst hid
      exact ⟨_, Map.get_put_same _ _ _⟩
    · exact ⟨r, by rw [Map.get_put_ne _ _ _ _ hid]; exact hr⟩
  · exact ⟨r, hr⟩
  · by_cases hid : wk.id = id
    · subst hid
      obtain ⟨st, _, hget⟩ := workerStore_get s.scanResults wk.id res
      exact ⟨_, hget⟩
    · exact ⟨r, by simp only; rw [workerStore_get_ne _ _ _ _ hid]; exact hr⟩
  · rcases cancelScan_get s id1 id with h1 | ⟨r0, _, h1⟩
    · exact ⟨r, by rw [h1, hr]⟩
    · exact ⟨_, h1⟩

/-- Only a cancel of the id removes its entry in `scanCancel`. -/
theorem step_signal_persists (s s2 : State) (a : Action) (id : String)
    (hstep : step caseTable s a = some s2) (hne : a ≠ Action.cancel id)
    (h : ∃ ch, Map.get s.scanCancel id = some ch) :
    ∃ ch, Map.get s2.scanCancel id = some ch := by
  obtain ⟨ch, hch⟩ := h
  rcases step_cases s s2 a hstep with
    ⟨input, level, risk, threads, timeBased, id1, _, rfl⟩ | ⟨w, ev, wk, res, _, _, _, _, rfl⟩ |
    ⟨w, wk, res, _, _, _, rfl⟩ | ⟨id1, ha, rfl⟩
  · simp only [submitOne]
    by_cases hid : id1 = id
    · subst hid
      exact ⟨_, Map.get_put_same _ _ _⟩
    · exact ⟨ch, by rw [Map.get_put_ne _ _ _ _ hid]; exact hch⟩
  · exact ⟨ch, hch⟩
  · exact ⟨ch, hch⟩
  · have hid : id1 ≠ id := by
      intro h
      apply hne
      rw [ha, h]
    unfold cancelScan
    cases hc : Map.get s.scanCancel id1 with
    | none => exact ⟨ch, hch⟩
    | some c =>
      refine ⟨ch, ?_⟩
      simp only
      rw [Map.get_del_ne _ _ _ hid]
      exact hch

/-- The id of a snapshot of a call is one of the ids drawn for its batch. -/
theorem callInv_id (uuidNew : Nat → String) (batchInput : ScanBatchInput)
    (sc : State × BatchCall) (h : CallInv uuidNew batchInput sc) (r : ScanResult)
    (hr : r ∈ sc.2.snapshots) : ∃ i, i < batchInput.URL.length ∧ r.ID = uuidNew i := by
  obtain ⟨_, _, hle, hcore, _⟩ := h
  have hmem : snapshotCore r ∈ sc.2.snapshots.map snapshotCore := List.mem_map_of_mem _ hr
  rw [hcore] at hmem
  obtain ⟨i, hi, hei⟩ := List.mem_map.mp hmem
  refine ⟨i, Nat.lt_of_lt_of_le (List.mem_range.mp hi) hle, ?_⟩
  have := congrArg Prod.fst hei
  exact this.symm

theorem callInv_step (uuidNew : Nat → String) (batchInput : ScanBatchInput)
    (sc sc2 : State × BatchCall) (act : CallAction) (h : CallInv uuidNew batchInput sc)
    (hstep : handleSQLiScanStep caseTable uuidNew sc act = some sc2) :
    CallInv uuidNew batchInput sc2 := by
  obtain ⟨hb, htodo, hle, hcore, hpres⟩ := h
  rcases handleSQLiScanStep_cases uuidNew sc sc2 act hstep with
    ⟨input, rest, _, hp, ht, rfl⟩ | ⟨p, _, hp, rfl⟩ | ⟨a, s2, _, hs, rfl⟩
  · have hdrop : batchInput.URL.drop sc.2.drawn = input :: rest := by rw [← htodo, ht]
    have hlt : sc.2.drawn < batchInput.URL.length := by
      have := congrArg List.length hdrop
      simp only [List.length_drop, List.length_cons] at this
      omega
    have hget : batchInput.URL[sc.2.drawn]? = some input := by
      have := List.getElem?_drop batchInput.URL sc.2.drawn 0
      rw [hdrop] at this
      simpa using this.symm
    have hsnap := snapshots_none sc.2 hp
    refine ⟨hb, ?_, hlt, ?_, ?_⟩
    · show rest = batchInput.URL.drop (sc.2.drawn + 1)
      rw [← List.tail_drop, hdrop]
      rfl
    · show (BatchCall.snapshots _).map snapshotCore = _
      rw [snapshots_some _ _ rfl]
      show (sc.2.results ++ [_]).map snapshotCore = _
      rw [← hsnap, List.map_append, hcore, List.range_succ, List.map_append]
      simp [snapshotCore, expectedCore, hget]
    · intro r hr
      rw [snapshots_some _ _ rfl] at hr
      simp only [List.mem_append, List.mem_singleton] at hr
      simp only [submitOne]
      rcases hr with hr | hr
      · obtain ⟨rec, hrec⟩ := hpres r (by rw [hsnap]; exact hr)
        by_cases hid : uuidNew sc.2.drawn = r.ID
        · rw [hid]
          exact ⟨_, Map.get_put_same _ _ _⟩
        · exact ⟨rec, by rw [Map.get_put_ne _ _ _ _ hid]; exact hrec⟩
      · subst hr
        exact ⟨_, Map.get_put_same _ _ _⟩
  · have hsnap := snapshots_some sc.2 p hp
    have hsnap2 : BatchCall.snapshots
        { sc.2 with results := sc.2.results ++ [p.1], pending := none } = sc.2.snapshots := by
      rw [snapshots_none _ rfl, hsnap]
    refine ⟨hb, htodo, hle, ?_, ?_⟩
    · rw [hsnap2]
      exact hcore
    · intro r hr
      rw [hsnap2] at hr
      exact hpres r hr
  · obtain ⟨htc, htm⟩ := snapshots_touch sc.2 sc.1 a
    refine ⟨hb, htodo, hle, htc.trans hcore, ?_⟩
    intro r hr
    apply step_record_persists sc.1 s2 a r.ID hs
    rcases htm r hr with h1 | ⟨r0, hr0, _, hid⟩
    · exact hpres r h1
    · rw [hid]
      exact hpres r0 hr0

theorem callQuiet_step (uuidNew : Nat → String) (batchInput : ScanBatchInput)
    (sc sc2 : State × BatchCall) (act : CallAction) (h : CallInv uuidNew batchInput sc)
    (hq : CallQuiet sc)
    (hact : ∀ i, i < batchInput.URL.length → act ≠ CallAction.other (Action.cancel (uuidNew i)))
    (hstep : handleSQLiScanStep caseTable uuidNew sc act = some sc2) : CallQuiet sc2 := by
  obtain ⟨hrun, hsig⟩ := hq
  rcases handleSQLiScanStep_cases uuidNew sc sc2 act hstep with
    ⟨input, rest, _, hp, ht, rfl⟩ | ⟨p, _, hp, rfl⟩ | ⟨a, s2, ha, hs, rfl⟩
  · have hsnap := snapshots_none sc.2 hp
    constructor
    · intro r hr
      rw [snapshots_some _ _ rfl] at hr
      simp only [List.mem_append, List.mem_singleton] at hr
      rcases hr with hr | hr
      · exact hrun r (by rw [hsnap]; exact hr)
      · subst hr
        rfl
    · intro r hr
      rw [snapshots_some _ _ rfl] at hr
      simp only [List.mem_append, List.mem_singleton] at hr
      simp only [submitOne]
      rcases hr with hr | hr
      · obtain ⟨ch, hch⟩ := hsig r (by rw [hsnap]; exact hr)
        by_cases hid : uuidNew sc.2.drawn = r.ID
        · rw [hid]
          exact ⟨_, Map.get_put_same _ _ _⟩
        · exact ⟨ch, by rw [Map.get_put_ne _ _ _ _ hid]; exact hch⟩
      · subst hr
        exact ⟨_, Map.get_put_same _ _ _⟩
  · have hsnap2 : BatchCall.snapshots
        { sc.2 with results := sc.2.results ++ [p.1], pending := none } = sc.2.snapshots := by
      rw [snapshots_none _ rfl, snapshots_some sc.2 p hp]
    constructor
    · intro r hr
      rw [hsnap2] at hr
      exact hrun r hr
    · intro r hr
      rw [hsnap2] at hr
      exact hsig r hr
  · have hnc : ∀ r ∈ sc.2.snapshots, a ≠ Action.cancel r.ID := by
      intro r hr hc
      obtain ⟨i, hi, hid⟩ := callInv_id uuidNew batchInput sc h r hr
      apply hact i hi
      rw [ha, hc, hid]
    obtain ⟨_, htm⟩ := snapshots_touch sc.2 sc.1 a
    have hold : ∀ r ∈ BatchCall.snapshots
        { sc.2 with pending := sc.2.pending.map (touchPending sc.1 a) }, r ∈ sc.2.snapshots := by
      intro r hr
      rcases htm r hr with h1 | ⟨r0, hr0, hc, _⟩
      · exact h1
      · exact absurd hc (hnc r0 hr0)
    constructor
    · intro r hr
      exact hrun r (hold r hr)
    · intro r hr
      exact step_signal_persists sc.1 s2 a r.ID hs (hnc r (hold r hr)) (hsig r (hold r hr))

theorem callInv_run (uuidNew : Nat → String) (batchInput : ScanBatchInput)
    (acts : List CallAction) (sc sc2 : State × BatchCall)
    (h : CallInv uuidNew batchInput sc)
    (hrun : handleSQLiScanRun caseTable uuidNew sc acts = some sc2) :
    CallInv uuidNew batchInput sc2 := by
  induction acts generalizing sc with
  | nil =>
    simp only [handleSQLiScanRun, Option.some.injEq] at hrun
    subst hrun
    exact h
  | cons a as ih =>
    simp only [handleSQLiScanRun] at hrun
    cases hst : handleSQLiScanStep caseTable uuidNew sc a with
    | none => rw [hst] at hrun; cases hrun
    | some sc1 =>
      rw [hst] at hrun
      exact ih sc1 (callInv_step uuidNew batchInput sc sc1 a h hst) hrun

theorem callQuiet_run (uuidNew : Nat → String) (batchInput : ScanBatchInput)
    (acts : List CallAction) (sc sc2 : State × BatchCall)
    (h : CallInv uuidNew batchInput sc) (hq : CallQuiet sc)
    (hact : ∀ i, i < batchInput.URL.length →
      CallAction.other (Action.cancel (uuidNew i)) ∉ acts)
    (hrun : handleSQLiScanRun caseTable uuidNew sc acts = some sc2) : CallQuiet sc2 := by
  induction acts generalizing sc with
  | nil =>
    simp only [handleSQLiScanRun, Option.some.injEq] at hrun
    subst hrun
    exact hq
  | cons a as ih =>
    simp only [handleSQLiScanRun] at hrun
    cases hst : handleSQLiScanStep caseTable uuidNew sc a with
    | none => rw [hst] at hrun; cases hrun
    | some sc1 =>
      rw [hst] at hrun
      refine ih sc1 (callInv_step uuidNew batchInput sc sc1 a h hst)
        (callQuiet_step uuidNew batchInput sc sc1 a h hq ?_ hst) ?_ hrun
      · intro i hi heq
        exact hact i hi (heq ▸ List.mem_cons_self _ _)
      · intro i hi hmem
        exact hact i hi (List.mem_cons_of_mem _ hmem)

variable (caseTable)

/-! ## Theorems on the batch dispatcher -/

/-- C6 fails when `cancelScan` is served while the call runs: with the cancel
of `"j1"` between the two iterations, the call answers 202 with two
`"running"` snapshots and `"j1"` has no entry in `scanCancel` after it; with
the cancel between the unlock and the copy of the first iteration, the
snapshot of `"j1"` in the answer has the status `"cancelled"`. -/
theorem handleSQLiScan_cancel_during_call :
    (handleSQLiScanRun sampleCaseTable sampleUuid (State.init, BatchCall.start sampleBatch)
        cancelBetweenIterations).map
      (fun sc => (handleSQLiScanResponse sc.2, Map.get sc.1.scanCancel "j1")) =
      some (some (Response.records 202
        [{ ID := "j1", URL := "http://t/p?q=FUZZ", Vulnerable := false, Payload := "",
           Status := "running" },
         { ID := "j2", URL := "http://t/p?q=1", Vulnerable := false, Payload := "",
           Status := "running" }]), none) ∧
    (handleSQLiScanRun sampleCaseTable sampleUuid (State.init, BatchCall.start sampleBatch)
        cancelBeforeCopy).map (fun sc => handleSQLiScanResponse sc.2) =
      some (some (Response.records 202
        [{ ID := "j1", URL := "http://t/p?q=FUZZ", Vulnerable := false, Payload := "",
           Status := "cancelled" },
         { ID := "j2", URL := "http://t/p?q=1", Vulnerable := false, Payload := "",
           Status := "running" }])) := by
  decide

/-- C6 (amended): whatever the rest of the program does while a call of
`handleSQLiScan` runs, when the ids drawn for the batch are pairwise distinct
the call answers 202 with exactly one snapshot per request, in request order,
the `i`-th with the `i`-th id, the URL of the `i`-th request,
`Vulnerable = false` and an empty payload; the ids are pairwise distinct and
every returned id has a record in the registry after the call. When no
cancel of one of these ids is served during the call, every snapshot has the
status `"running"` and every returned id has an entry in `scanCancel` after
the call. -/
theorem handleSQLiScan_snapshots (uuidNew : Nat → String) (s0 : State)
    (batchInput : ScanBatchInput) (acts : List CallAction) (s : State) (c : BatchCall)
    (hrun : handleSQLiScanRun caseTable uuidNew (s0, BatchCall.start batchInput) acts
      = some (s, c))
    (hend : c.todo = [] ∧ c.pending = none)
    (hinj : ∀ i j, i < batchInput.URL.length → j < batchInput.URL.length →
      uuidNew i = uuidNew j → i = j) :
    handleSQLiScanResponse c = some (Response.records 202 c.results) ∧
    c.results.length = batchInput.URL.length ∧
    (∀ (i : Nat) (input : ScanInput), batchInput.URL[i]? = some input →
      ∃ r, c.results[i]? = some r ∧ r.ID = uuidNew i ∧ r.URL = input.URL ∧
        r.Vulnerable = false ∧ r.Payload = "") ∧
    (c.results.map (fun r => r.ID)).Nodup ∧
    (∀ r ∈ c.results, ∃ rec, Map.get s.scanResults r.ID = some rec) ∧
    ((∀ i, i < batchInput.URL.length →
        CallAction.other (Action.cancel (uuidNew i)) ∉ acts) →
      (∀ r ∈ c.results, r.Status = "running") ∧
      ∀ r ∈ c.results, ∃ ch, Map.get s.scanCancel r.ID = some ch) := by
  have hinit : CallInv uuidNew batchInput (s0, BatchCall.start batchInput) := by
    refine ⟨rfl, rfl, Nat.zero_le _, rfl, ?_⟩
    intro r hr
    simp [BatchCall.snapshots, BatchCall.start] at hr
  have hqinit : CallQuiet (s0, BatchCall.start batchInput) := by
    constructor <;> intro r hr <;> simp [BatchCall.snapshots, BatchCall.start] at hr
  have hinv := callInv_run uuidNew batchInput acts _ _ hinit hrun
  obtain ⟨_, htodo, hle, hcore, hpres⟩ := hinv
  simp only at htodo hle hcore hpres
  have hsn : c.snapshots = c.results := snapshots_none c hend.2
  rw [hsn] at hcore hpres
  have hdrawn : c.drawn = batchInput.URL.length := by
    rw [hend.1] at htodo
    have := List.drop_eq_nil_iff.mp htodo.symm
    omega
  rw [hdrawn] at hcore
  have hlen : c.results.length = batchInput.URL.length := by
    have := congrArg List.length hcore
    simpa using this
  refine ⟨?_, hlen, ?_, ?_, hpres, ?_⟩
  · simp [handleSQLiScanResponse, hend.1, hend.2]
  · intro i input hi
    have hlt : i < batchInput.URL.length := by
      rcases Nat.lt_or_ge i batchInput.URL.length with h | h
      · exact h
      · rw [List.getElem?_eq_none h] at hi
        cases hi
    have hget := congrArg (fun l => l[i]?) hcore
    simp only [List.getElem?_map, List.getElem?_range hlt, Option.map_some'] at hget
    cases hr : c.results[i]? with
    | none =>
      rw [hr] at hget
      cases hget
    | some r =>
      rw [hr] at hget
      simp only [Option.map_some', Option.some.injEq, snapshotCore, expectedCore, hi,
        Option.getD_some, Prod.mk.injEq] at hget
      exact ⟨r, rfl, hget.1, hget.2.1, hget.2.2.1, hget.2.2.2⟩
  · have hmap : c.results.map (fun r => r.ID) = (List.range batchInput.URL.length).map uuidNew := by
      have := congrArg (List.map Prod.fst) hcore
      simpa [List.map_map, Function.comp_def, snapshotCore, expectedCore] using this
    rw [hmap]
    refine List.Nodup.map_on ?_ (List.nodup_range _)
    intro i hi j hj hij
    exact hinj i j (List.mem_range.mp hi) (List.mem_range.mp hj) hij
  · intro hnc
    have hq := callQuiet_run uuidNew batchInput acts _ _ hinit hqinit hnc hrun
    obtain ⟨h1, h2⟩ := hq
    simp only at h1 h2
    rw [hsn] at h1 h2
    exact ⟨h1, h2⟩

/-- C6 (amended) at the call on `sampleBatch` that no other step disturbs. -/
theorem handleSQLiScan_snapshots_witness :
    quietCallEnd.2.results.length = 2 ∧
    (∀ r ∈ quietCallEnd.2.results, r.Status = "running") ∧
    ∀ r ∈ quietCallEnd.2.results, ∃ ch, Map.get quietCallEnd.1.scanCancel r.ID = some ch :=
  have h := handleSQLiScan_snapshots sampleCaseTable sampleUuid State.init sampleBatch quietCall
    quietCallEnd.1 quietCallEnd.2 (by decide) (by decide)
    (by
      intro i j hi hj h
      have hi2 : i < 2 := hi
      have hj2 : j < 2 := hj
      interval_cases i <;> interval_cases j <;> first | rfl | (exact absurd h (by decide)))
  ⟨h.2.1, h.2.2.2.2.2 (by decide)⟩


end AcmSqli
